import Mathlib

/-!
# A verification development for the loro CRDT core

This file gives a shallow embedding, in Lean 4, of parts of the loro
CRDT engine (crates `loro-internal` and `loro-common`), together with
theorems settling a list of claims about it.

Embedding conventions:
* `PeerID` (`u64`) and `Counter` (`i32`) are modelled as `Nat`; peer ids are
  unsigned in the source and op counters start at `0` and grow by one per
  atomic op, so version-vector entries and op ids never hold negative
  counters.  Positions and signed lengths of delete spans (`isize`) are
  modelled as `Int` because they are genuinely signed.
* Rust `FxHashMap` values are modelled as association lists; where a claim
  needs the hash-map key-uniqueness invariant it appears as a `Nodup`
  hypothesis on the key list.
* Rust strings are modelled as lists of unicode code points (`List Nat`).
-/

namespace Loro

/-- `ID = (peer, counter)`: the identity of one atomic op
(`loro-internal/src/id.rs`, re-exported by `version.rs`). -/
structure ID where
  peer : Nat
  counter : Nat
  deriving DecidableEq, Repr

/-- `ID::inc`: advance the counter.  The source takes an `i32` delta; every
use in the embedded code passes a non-negative amount. -/
def ID.inc (i : ID) (x : Nat) : ID :=
  { i with counter := i.counter + x }

/-! ## Version vectors (`loro-internal/src/version.rs`)

`VersionVector` is a map `PeerID -> Counter` (a right-open interval per
peer), stored in the source as an `FxHashMap` and modelled here as an
association list of `(peer, exclusive-end counter)` entries. -/

/-- `VersionVector(FxHashMap<PeerID, Counter>)` as an association list. -/
abbrev VersionVector : Type := List (Nat × Nat)

/-- The key list of a version vector. -/
def VersionVector.keys (vv : VersionVector) : List Nat :=
  vv.map Prod.fst

/-- `self.get(&peer)`: hash-map lookup. -/
def VersionVector.get : VersionVector → Nat → Option Nat
  | [], _ => none
  | (p, c) :: rest, q => if p = q then some c else VersionVector.get rest q

/-- Lookup with the default `0`, the exclusive-end counter of an absent
peer.  This is the semantic reading used by `includes_id` and by the
`PartialEq` impl (`other.get(client).unwrap_or(&0)`). -/
def VersionVector.getD (vv : VersionVector) (p : Nat) : Nat :=
  (vv.get p).getD 0

/-- `VersionVector::includes_id`: whether the op id is inside the
right-open interval recorded for its peer. -/
def VersionVector.includes_id (vv : VersionVector) (id : ID) : Bool :=
  match vv.get id.peer with
  | some e => id.counter < e
  | none => false

/-- `impl PartialEq for VersionVector`: both directions of
`iter().all(|(c, n)| other.get(c).unwrap_or(&0) == n)`. -/
def VersionVector.vv_eq (a b : VersionVector) : Bool :=
  a.all (fun e => b.getD e.1 == e.2) && b.all (fun e => a.getD e.1 == e.2)

/-- State of the three flags threaded through `partial_cmp`'s loops:
`(self_greater, other_greater, eq)`. -/
structure CmpFlags where
  self_greater : Bool
  other_greater : Bool
  eq : Bool

/-- Body of the first loop of `VersionVector::partial_cmp`: one step per
entry `(client_id, other_end)` of `other`. -/
def cmpStep1 (a : VersionVector) (st : CmpFlags) (e : Nat × Nat) : CmpFlags :=
  match a.get e.1 with
  | some self_end =>
    let st := if self_end < e.2 then { st with self_greater := false, eq := false } else st
    if e.2 < self_end then { st with other_greater := false, eq := false } else st
  | none =>
    if 0 < e.2 then { st with self_greater := false, eq := false } else st

/-- Body of the second loop of `VersionVector::partial_cmp`: one step per
entry `(client_id, self_end)` of `self`. -/
def cmpStep2 (b : VersionVector) (st : CmpFlags) (e : Nat × Nat) : CmpFlags :=
  if (b.get e.1).isSome then st
  else if 0 < e.2 then { st with other_greater := false, eq := false } else st

/-- `impl PartialOrd for VersionVector { fn partial_cmp }`: two loops
updating the three flags, then the final decision. -/
def VersionVector.partialCmp (a b : VersionVector) : Option Ordering :=
  let st : CmpFlags := ⟨true, true, true⟩
  let st := b.foldl (cmpStep1 a) st
  let st := a.foldl (cmpStep2 b) st
  if st.eq then some .eq
  else if st.self_greater then some .gt
  else if st.other_greater then some .lt
  else none

/-! ## Counter spans, forward and retreat (`version.rs`) -/

/-- `CounterSpan { start, end }` (defined in `loro-internal/src/span.rs`,
which is not part of the sources; modelled from its use in `version.rs`).
A span of counters of one peer; it can be stored reversed, so consumers
use `min()` and `norm_end()` below. -/
structure CounterSpan where
  start : Nat
  stop : Nat
  deriving DecidableEq, Repr

/-- `CounterSpan::min()`: the smaller endpoint.  Modelled from the spec:
`span.rs` is not under the sources; `version.rs` uses `min()` as the
inclusive lower counter of the (possibly reversed) span. -/
def CounterSpan.minVal (s : CounterSpan) : Nat := min s.start s.stop

/-- `CounterSpan::norm_end()`: the larger endpoint.  Modelled from the
spec: `version.rs` uses `norm_end()` as the exclusive upper counter of the
(possibly reversed) span. -/
def CounterSpan.norm_end (s : CounterSpan) : Nat := max s.start s.stop

/-- `IdSpanVector = FxHashMap<PeerID, CounterSpan>` as an association
list. -/
abbrev IdSpanVector : Type := List (Nat × CounterSpan)

/-- Replace the value stored for key `p` (every occurrence, matching the
hash-map update reached through `get_mut`). -/
def VersionVector.setEntry : VersionVector → Nat → Nat → VersionVector
  | [], _, _ => []
  | e :: rest, p, x =>
    if e.1 = p then (p, x) :: VersionVector.setEntry rest p x
    else e :: VersionVector.setEntry rest p x

/-- `self.insert(peer, v)` on a key known to be absent. -/
def VersionVector.insertEntry (vv : VersionVector) (p : Nat) (v : Nat) : VersionVector :=
  vv ++ [(p, v)]

/-- `self.remove(&peer)`. -/
def VersionVector.removeEntry : VersionVector → Nat → VersionVector
  | [], _ => []
  | e :: rest, p =>
    if e.1 = p then VersionVector.removeEntry rest p
    else e :: VersionVector.removeEntry rest p

/-- `VersionVector::extend_to_include(span)`: raise the peer's end counter
to `span.counter.norm_end()` if it is below it, inserting the peer if
absent. -/
def VersionVector.extend_to_include (vv : VersionVector) (span : Nat × CounterSpan) : VersionVector :=
  match vv.get span.1 with
  | some counter =>
    if counter < span.2.norm_end then vv.setEntry span.1 span.2.norm_end else vv
  | none => vv.insertEntry span.1 span.2.norm_end

/-- `VersionVector::shrink_to_exclude(span)`: if the span reaches counter
`0`, drop the peer entirely; otherwise lower the peer's end counter to
`span.counter.min()` if it is above it. -/
def VersionVector.shrink_to_exclude (vv : VersionVector) (span : Nat × CounterSpan) : VersionVector :=
  if span.2.minVal = 0 then vv.removeEntry span.1
  else
    match vv.get span.1 with
    | some counter => if span.2.minVal < counter then vv.setEntry span.1 span.2.minVal else vv
    | none => vv

/-- `VersionVector::forward(spans)`: extend to include every span. -/
def VersionVector.forward (vv : VersionVector) (spans : IdSpanVector) : VersionVector :=
  spans.foldl VersionVector.extend_to_include vv

/-- `VersionVector::retreat(spans)`: shrink to exclude every span. -/
def VersionVector.retreat (vv : VersionVector) (spans : IdSpanVector) : VersionVector :=
  spans.foldl VersionVector.shrink_to_exclude vv

/-! ## Frontiers (`version.rs`)

`Frontiers(SmallVec<[ID; 1]>)`: a sequence of ids, morally a minimal
antichain of the DAG. -/

/-- The stored id sequence of a `Frontiers` value. -/
abbrev Frontiers : Type := List ID

/-- `impl PartialEq for Frontiers`: a length check, then one of three
branches depending on the length — direct sequence comparison for length
at most 1, `self ⊆ other` membership for length at most 10, and `other ⊆
set(self)` membership above that. -/
def Frontiers.frontiers_eq (a b : Frontiers) : Bool :=
  if a.length ≠ b.length then false
  else if a.length ≤ 1 then a == b
  else if a.length ≤ 10 then a.all (fun id => b.contains id)
  else b.all (fun id => a.contains id)

/-- The inner `deps.iter().any(..)` of
`Frontiers::update_frontiers_on_new_change`, searching for a dep with the
same peer and counter as the retained id.  The closure asserts
`dep.counter <= existing_id.counter` for every same-peer dep it visits;
`none` models that panic.  Like Rust's `any`, the search stops at the
first hit. -/
def depsAnySame (deps : List ID) (existing : ID) : Option Bool :=
  match deps with
  | [] => some false
  | d :: rest =>
    if d.peer = existing.peer then
      if existing.counter < d.counter then none
      else if d.counter = existing.counter then some true
      else depsAnySame rest existing
    else depsAnySame rest existing

/-- The `retain` pass of `Frontiers::update_frontiers_on_new_change`:
drop ids with the new change's peer (asserting the new counter is
larger), and drop ids matched by a dep.  `none` models an assertion
panic. -/
def updateRetain (id : ID) (deps : List ID) : Frontiers → Option Frontiers
  | [] => some []
  | e :: rest =>
    if e.peer = id.peer then
      if e.counter < id.counter then updateRetain id deps rest else none
    else
      match depsAnySame deps e with
      | none => none
      | some anySame =>
        match updateRetain id deps rest with
        | none => none
        | some kept => some (if anySame then kept else e :: kept)

/-- `Frontiers::update_frontiers_on_new_change(id, deps)`: retain, then
push the new id. -/
def Frontiers.update_frontiers_on_new_change (f : Frontiers) (id : ID) (deps : List ID) :
    Option Frontiers :=
  (updateRetain id deps f).map (· ++ [id])

/-! ## Style ops (`loro-internal/src/container/richtext.rs` and
`loro-internal/src/delta/text.rs`) -/

/-- `StyleOp`: one rich-text style operation.  `key` is an
`InternalString` (a list of code points here), `info` the `u8` flag
byte. -/
structure StyleOp where
  lamport : Nat
  peer : Nat
  cnt : Nat
  key : List Nat
  info : Nat

/-- `impl Ord for StyleOp`: compare lamport, then peer. -/
def StyleOp.cmp (s o : StyleOp) : Ordering :=
  (compare s.lamport o.lamport).then (compare s.peer o.peer)

/-- Strict lexicographic order on `(lamport, peer)` pairs — Rust's derived
`Ord` on the 2-tuple used by `StyleMetaItem::try_replace`. -/
def lamportPeerLt (a b : Nat × Nat) : Prop :=
  a.1 < b.1 ∨ (a.1 = b.1 ∧ a.2 < b.2)

instance (a b : Nat × Nat) : Decidable (lamportPeerLt a b) := by
  unfold lamportPeerLt; infer_instance

/-- `StyleMetaItem { lamport, peer, value }`.  The value type is left as a
parameter of the embedding; `LoroValue` instantiates it below. -/
structure StyleMetaItem (V : Type) where
  lamport : Nat
  peer : Nat
  value : V

/-- `StyleMetaItem::try_replace`: overwrite the stored fields exactly when
the incoming `(lamport, peer)` is strictly greater. -/
def StyleMetaItem.try_replace {V : Type} (s other : StyleMetaItem V) : StyleMetaItem V :=
  if lamportPeerLt (s.lamport, s.peer) (other.lamport, other.peer) then
    { s with lamport := other.lamport, peer := other.peer, value := other.value }
  else s

/-- `StyleMeta { map: FxHashMap<InternalString, StyleMetaItem> }` as an
association list. -/
abbrev StyleMeta (V : Type) : Type := List (List Nat × StyleMetaItem V)

/-- Hash-map lookup on a `StyleMeta`. -/
def StyleMeta.getItem {V : Type} : StyleMeta V → List Nat → Option (StyleMetaItem V)
  | [], _ => none
  | (k, it) :: rest, q => if k = q then some it else StyleMeta.getItem rest q

/-- The per-entry step of `StyleMeta::compose`: `try_replace` when the key
is present, plain insert when it is absent. -/
def composeStep {V : Type} (m : StyleMeta V) (e : List Nat × StyleMetaItem V) : StyleMeta V :=
  if (m.getItem e.1).isSome then
    m.map (fun kv => if kv.1 = e.1 then (kv.1, kv.2.try_replace e.2) else kv)
  else m ++ [e]

/-- `impl Meta for StyleMeta { fn compose }`: fold the incoming entries
into the stored map. -/
def StyleMeta.compose {V : Type} (m other : StyleMeta V) : StyleMeta V :=
  other.foldl composeStep m

/-! ## Container identity (`loro-common`)

Only `value.rs` of `loro-common` is part of the sources, so `ContainerID`
and its string form are modelled from the spec: `ContainerID = Root{name,
type} | Normal{peer, counter, type}` with string form
`cid:<disc>:<name-or-id>:<type>`.  Strings are lists of unicode code
points; named code points used below: `:` = 58, `@` = 64, digits 48–57,
and the parrot sentinel U+1F99C = 129436. -/

/-- The four collaborative container types of the spec. -/
inductive ContainerType where
  | text
  | list
  | map
  | movableList
  deriving DecidableEq, Repr

/-- The code points of a container type tag. -/
def ContainerType.tyChars : ContainerType → List Nat
  | .text => [84, 101, 120, 116]
  | .list => [76, 105, 115, 116]
  | .map => [77, 97, 112]
  | .movableList => [77, 111, 118, 97, 98, 108, 101, 76, 105, 115, 116]

/-- Parse a container type tag. -/
def ContainerType.tyParse (l : List Nat) : Option ContainerType :=
  if l = ContainerType.tyChars .text then some .text
  else if l = ContainerType.tyChars .list then some .list
  else if l = ContainerType.tyChars .map then some .map
  else if l = ContainerType.tyChars .movableList then some .movableList
  else none

/-- Modelled from the spec: `ContainerID = Root{name, type} |
Normal{peer, counter, type}` (`loro-common/src/id.rs` is not under the
sources). -/
inductive ContainerID where
  | root (name : List Nat) (ty : ContainerType)
  | normal (peer : Nat) (counter : Nat) (ty : ContainerType)
  deriving DecidableEq, Repr

/-- Decimal digits of `n`, most significant first, as code points. -/
def natChars (n : Nat) : List Nat :=
  if n = 0 then [48] else ((Nat.digits 10 n).map (fun d => 48 + d)).reverse

/-- Parse a non-empty all-digit code-point list as a decimal number. -/
def parseNatChars (l : List Nat) : Option Nat :=
  if l = [] then none
  else if l.all (fun c => decide (48 ≤ c) && decide (c ≤ 57)) then
    some (l.foldl (fun acc c => acc * 10 + (c - 48)) 0)
  else none

/-- Split a list at the first occurrence of `sep` (`none` if absent). -/
def splitFirst (sep : Nat) : List Nat → Option (List Nat × List Nat)
  | [] => none
  | c :: rest =>
    if c = sep then some ([], rest)
    else (splitFirst sep rest).map (fun ab => (c :: ab.1, ab.2))

/-- Split a list at the last occurrence of `sep` (`none` if absent). -/
def splitLast (sep : Nat) (l : List Nat) : Option (List Nat × List Nat) :=
  (splitFirst sep l.reverse).map (fun ab => (ab.2.reverse, ab.1.reverse))

/-- Strip a literal leading segment, or fail. -/
def stripPre (pre l : List Nat) : Option (List Nat) :=
  if pre.isPrefixOf l then some (l.drop pre.length) else none

/-- `"cid:"`. -/
def cidHead : List Nat := [99, 105, 100, 58]

/-- `"root:"`, the root discriminant segment. -/
def rootHead : List Nat := [114, 111, 111, 116, 58]

/-- `"normal:"`, the normal discriminant segment. -/
def normalHead : List Nat := [110, 111, 114, 109, 97, 108, 58]

/-- Modelled from the spec: the string form of a `ContainerID`,
`cid:<disc>:<name-or-id>:<type>`, with a normal id written
`counter@peer`. -/
def ContainerID.cidToChars : ContainerID → List Nat
  | .root name ty => cidHead ++ rootHead ++ name ++ [58] ++ ty.tyChars
  | .normal peer counter ty =>
    cidHead ++ normalHead ++ natChars counter ++ [64] ++ natChars peer ++ [58] ++ ty.tyChars

/-- Modelled from the spec: `ContainerID::try_from(&str)`, the inverse of
`cidToChars`.  The type tag is the segment after the last `:` (so root
names may themselves contain `:`). -/
def ContainerID.cidParse (l : List Nat) : Option ContainerID :=
  match stripPre cidHead l with
  | none => none
  | some r =>
    match stripPre rootHead r with
    | some r2 =>
      match splitLast 58 r2 with
      | none => none
      | some (name, tyS) => (ContainerType.tyParse tyS).map (ContainerID.root name)
    | none =>
      match stripPre normalHead r with
      | none => none
      | some r2 =>
        match splitFirst 64 r2 with
        | none => none
        | some (cS, rest) =>
          match splitFirst 58 rest with
          | none => none
          | some (pS, tyS) =>
            match parseNatChars cS, parseNatChars pS, ContainerType.tyParse tyS with
            | some counter, some peer, some ty => some (ContainerID.normal peer counter ty)
            | _, _, _ => none

/-! ## Values (`loro-common/src/value.rs`)

`LoroValue` with `f64` payloads carried as opaque bit patterns (`Double`
stores `to_bits()`), byte payloads as lists of byte values, and strings as
code-point lists. -/

/-- `LoroValue`: the recursive document value. -/
inductive LoroValue where
  | null
  | bool (b : Bool)
  | double (bits : Nat)
  | i64 (i : Int)
  | binary (bytes : List Nat)
  | string (s : List Nat)
  | list (l : List LoroValue)
  | map (entries : List (List Nat × LoroValue))
  | container (id : ContainerID)

/-- The JSON data model produced by a human-readable serde serializer:
unit, bool, integer and float numbers (floats kept as `f64` bit
patterns), strings, sequences and string-keyed maps. -/
inductive Json where
  | jnull
  | jbool (b : Bool)
  | jint (i : Int)
  | jfloat (bits : Nat)
  | jstr (s : List Nat)
  | jarr (l : List Json)
  | jobj (entries : List (List Nat × Json))

/-- `"🦜:"`, `LORO_CONTAINER_ID_PREFIX`. -/
def sentinel : List Nat := [129436, 58]

mutual

/-- The human-readable branch of `impl Serialize for LoroValue`: null,
bool, numbers and strings go through the corresponding serde primitives,
binary through `collect_seq` over its bytes, lists and maps recursively,
and a container reference as the string `"🦜:" + id`. -/
def serializeValue : LoroValue → Json
  | .null => .jnull
  | .bool b => .jbool b
  | .double bits => .jfloat bits
  | .i64 i => .jint i
  | .binary bytes => .jarr (bytes.map (fun x => Json.jint x))
  | .string s => .jstr s
  | .list l => .jarr (serializeValueList l)
  | .map entries => .jobj (serializeValueEntries entries)
  | .container id => .jstr (sentinel ++ id.cidToChars)

/-- Elementwise serialization of a value list. -/
def serializeValueList : List LoroValue → List Json
  | [] => []
  | v :: rest => serializeValue v :: serializeValueList rest

/-- Entrywise serialization of map entries. -/
def serializeValueEntries : List (List Nat × LoroValue) → List (List Nat × Json)
  | [] => []
  | e :: rest => (e.1, serializeValue e.2) :: serializeValueEntries rest

end

mutual

/-- `LoroValueVisitor` driven by `deserialize_any`: each JSON shape maps
back to a value.  A string is checked against the `"🦜:"` sentinel
(`visit_str`/`visit_string`): with the sentinel it must parse as a
container id (a parse failure is a deserialization error, modelled as
`none`); without it, it is a plain string. -/
def deserializeValue : Json → Option LoroValue
  | .jnull => some .null
  | .jbool b => some (.bool b)
  | .jint i => some (.i64 i)
  | .jfloat bits => some (.double bits)
  | .jstr s =>
    match stripPre sentinel s with
    | some rest => (ContainerID.cidParse rest).map LoroValue.container
    | none => some (.string s)
  | .jarr l => (deserializeValueList l).map LoroValue.list
  | .jobj entries => (deserializeValueEntries entries).map LoroValue.map

/-- `visit_seq`: deserialize every element. -/
def deserializeValueList : List Json → Option (List LoroValue)
  | [] => some []
  | j :: rest =>
    match deserializeValue j with
    | none => none
    | some v =>
      match deserializeValueList rest with
      | none => none
      | some t => some (v :: t)

/-- `visit_map`: deserialize every entry's value. -/
def deserializeValueEntries : List (List Nat × Json) → Option (List (List Nat × LoroValue))
  | [] => some []
  | e :: rest =>
    match deserializeValue e.2 with
    | none => none
    | some v =>
      match deserializeValueEntries rest with
      | none => none
      | some t => some ((e.1, v) :: t)

end

mutual

/-- Values on which the human-readable encoding is lossless: no `Binary`
anywhere (its sequence encoding decodes as a list of integers) and no
string starting with the `"🦜:"` sentinel (such strings decode as
container references or fail to decode). -/
def roundtrippable : LoroValue → Bool
  | .binary _ => false
  | .string s => !(sentinel.isPrefixOf s)
  | .list l => roundtrippableList l
  | .map entries => roundtrippableEntries entries
  | _ => true

/-- Elementwise `roundtrippable` on a value list. -/
def roundtrippableList : List LoroValue → Bool
  | [] => true
  | v :: rest => roundtrippable v && roundtrippableList rest

/-- Entrywise `roundtrippable` on map entries. -/
def roundtrippableEntries : List (List Nat × LoroValue) → Bool
  | [] => true
  | e :: rest => roundtrippable e.2 && roundtrippableEntries rest

end

/-! ## Value depth (`value.rs`) -/

/-- `MAX_DEPTH`. -/
def MAX_DEPTH : Nat := 128

mutual

/-- A computable size of a value, used as the termination measure of
`get_depth`'s worklist loop. -/
def vsize : LoroValue → Nat
  | .list l => 1 + vsizeList l
  | .map entries => 1 + vsizeEntries entries
  | _ => 1

/-- Total `vsize` of a value list. -/
def vsizeList : List LoroValue → Nat
  | [] => 0
  | v :: rest => vsize v + vsizeList rest

/-- Total `vsize` of map entries. -/
def vsizeEntries : List (List Nat × LoroValue) → Nat
  | [] => 0
  | e :: rest => vsize e.2 + vsizeEntries rest

end

/-- Total size of the values on a depth worklist, the termination measure
of `get_depth`'s loop. -/
def stackSize (stack : List (LoroValue × Nat)) : Nat :=
  (stack.map (fun e => vsize e.1)).sum

/-- The worklist loop of `LoroValue::get_depth`: pop a `(value, depth)`
pair; a list or map raises the running maximum to `depth + 1` and pushes
its children at `depth + 1`; every other value is a leaf. -/
def get_depth_loop : List (LoroValue × Nat) → Nat → Nat
  | [], m => m
  | (v, d) :: rest, m =>
    match v with
    | .list xs => get_depth_loop (xs.map (fun x => (x, d + 1)) ++ rest) (max m (d + 1))
    | .map es => get_depth_loop (es.map (fun e => (e.2, d + 1)) ++ rest) (max m (d + 1))
    | _ => get_depth_loop rest m
termination_by stack _ => stackSize stack
decreasing_by
  · have hx : ∀ ys : List LoroValue,
        ((ys.map fun x => (x, d + 1)).map fun e => vsize e.1).sum = vsizeList ys := by
      intro ys
      induction ys with
      | nil => rfl
      | cons y t ih => simp only [List.map_cons, List.sum_cons, vsizeList, ih]
    simp only [stackSize, List.map_append, List.sum_append, List.map_cons, List.sum_cons,
      hx, vsize]
    omega
  · have hx : ∀ ys : List (List Nat × LoroValue),
        ((ys.map fun e => (e.2, d + 1)).map fun e => vsize e.1).sum = vsizeEntries ys := by
      intro ys
      induction ys with
      | nil => rfl
      | cons y t ih => simp only [List.map_cons, List.sum_cons, vsizeEntries, ih]
    simp only [stackSize, List.map_append, List.sum_append, List.map_cons, List.sum_cons,
      hx, vsize]
    omega
  · simp only [stackSize, List.map_cons, List.sum_cons]
    refine Nat.lt_add_of_pos_left ?_
    rename_i w
    cases w <;> simp [vsize]

/-- `LoroValue::get_depth`: run the worklist loop from the value at depth
`0`. -/
def LoroValue.get_depth (v : LoroValue) : Nat :=
  get_depth_loop [(v, 0)] 0

/-- `LoroValue::is_too_deep`: `get_depth() > MAX_DEPTH`. -/
def LoroValue.is_too_deep (v : LoroValue) : Bool :=
  MAX_DEPTH < v.get_depth

mutual

/-- The claim's depth measure, stated recursively: each list or map level
adds one and leaves add none.  This is the specification-side definition
that `get_depth` is proved to compute. -/
def valueDepth : LoroValue → Nat
  | .list l => 1 + valueDepthList l
  | .map entries => 1 + valueDepthEntries entries
  | _ => 0

/-- Maximum `valueDepth` over a value list. -/
def valueDepthList : List LoroValue → Nat
  | [] => 0
  | v :: rest => max (valueDepth v) (valueDepthList rest)

/-- Maximum `valueDepth` over map entries. -/
def valueDepthEntries : List (List Nat × LoroValue) → Nat
  | [] => 0
  | e :: rest => max (valueDepth e.2) (valueDepthEntries rest)

end

/-- The API-boundary error for over-deep values. -/
inductive ApiError where
  | depthExceeded
  deriving DecidableEq, Repr

/-- Modelled from the spec: the API boundary rejects a value with
`DepthExceeded` exactly when `is_too_deep` holds (the boundary check
itself lives outside the sources; `value.rs` only supplies `get_depth`,
`is_too_deep` and the `MAX_DEPTH` cut-off, which its `Arbitrary` impl
also enforces). -/
def checkValueDepth (v : LoroValue) : Except ApiError LoroValue :=
  if v.is_too_deep then .error .depthExceeded else .ok v

/-! ## List/text op content (`loro-internal/src/op.rs` and
`loro-internal/src/container/list/list_op.rs`) -/

/-- `UNKNOWN_START = u32::MAX / 2`. -/
def UNKNOWN_START : Nat := 2147483647

/-- `SliceRange(Range<u32>)`: a range into the shared value arena.  `stop`
is the exclusive end (`end` in the source). -/
structure SliceRange where
  start : Nat
  stop : Nat
  deriving DecidableEq, Repr

/-- `SliceRange::is_unknown`. -/
def SliceRange.is_unknown (s : SliceRange) : Bool :=
  s.start == UNKNOWN_START

/-- `SliceRange::new_unknown`. -/
def SliceRange.new_unknown (size : Nat) : SliceRange :=
  ⟨UNKNOWN_START, UNKNOWN_START + size⟩

/-- `impl HasLength for SliceRange`. -/
def SliceRange.content_len (s : SliceRange) : Nat :=
  s.stop - s.start

/-- `impl Sliceable for SliceRange`. -/
def SliceRange.slice (s : SliceRange) (a b : Nat) : SliceRange :=
  if s.is_unknown then SliceRange.new_unknown (b - a)
  else ⟨s.start + a, s.start + b⟩

/-- `impl Mergable for SliceRange { fn is_mergable }`. -/
def SliceRange.is_mergable (s other : SliceRange) : Bool :=
  (s.is_unknown && other.is_unknown) || s.stop == other.start

/-- `impl Mergable for SliceRange { fn merge }`. -/
def SliceRange.mergeWith (s other : SliceRange) : SliceRange :=
  if s.is_unknown then ⟨s.start, s.stop + (other.stop - other.start)⟩
  else ⟨s.start, other.stop⟩

/-- `BytesSlice` (from the external `append_only_bytes` crate): a range
into the document's append-only byte buffer.  Slices of the same buffer
can merge when they are adjacent. -/
structure BytesSlice where
  start : Nat
  stop : Nat
  deriving DecidableEq, Repr

/-- `BytesSlice::can_merge`: adjacency in the shared buffer. -/
def BytesSlice.can_merge (s other : BytesSlice) : Bool :=
  s.stop == other.start

/-- `BytesSlice::slice(a..b)`: a sub-range, offsets relative to the
slice. -/
def BytesSlice.sliceBytes (s : BytesSlice) (a b : Nat) : BytesSlice :=
  ⟨s.start + a, s.start + b⟩

/-- `BytesSlice` merge: extend to the other slice's end. -/
def BytesSlice.mergeWith (s other : BytesSlice) : BytesSlice :=
  ⟨s.start, other.stop⟩

/-- The byte offset of unicode position `u` in a text buffer whose chars
have the byte widths `cw` (the unicode↔byte map of
`utils/string_slice.rs`, which is not under the sources). -/
def byteOff (cw : List Nat) (u : Nat) : Nat :=
  (cw.take u).sum

/-- `unicode_range_to_byte_range` on the byte content of an op that
starts at unicode position `us` of the buffer: byte offsets of the
unicode range `[a, b)`, relative to the op's slice. -/
def u2bRange (cw : List Nat) (us a b : Nat) : Nat × Nat :=
  (byteOff cw (us + a) - byteOff cw us, byteOff cw (us + b) - byteOff cw us)

/-- `DeleteSpan { pos: isize, signed_len: isize }`: a possibly reversed
deletion span: `pos: 5, len: -3` covers the positions `(2, 5]`. -/
structure DeleteSpan where
  pos : Int
  signed_len : Int
  deriving DecidableEq, Repr

/-- `impl HasLength for DeleteSpan`: `signed_len.unsigned_abs()`. -/
def DeleteSpan.content_len (s : DeleteSpan) : Nat :=
  s.signed_len.natAbs

/-- `DeleteSpan::start`. -/
def DeleteSpan.start (s : DeleteSpan) : Int :=
  if 0 < s.signed_len then s.pos else s.pos + 1 + s.signed_len

/-- `DeleteSpan::last`. -/
def DeleteSpan.last (s : DeleteSpan) : Int :=
  if 0 < s.signed_len then s.pos + s.signed_len - 1 else s.pos

/-- `DeleteSpan::end`. -/
def DeleteSpan.endPos (s : DeleteSpan) : Int :=
  if 0 < s.signed_len then s.pos + s.signed_len else s.pos + 1

/-- `DeleteSpan::bidirectional`: length one. -/
def DeleteSpan.bidirectional (s : DeleteSpan) : Bool :=
  s.signed_len.natAbs == 1

/-- `DeleteSpan::is_reversed`. -/
def DeleteSpan.is_reversed (s : DeleteSpan) : Bool :=
  s.signed_len < 0

/-- `DeleteSpan::direction`. -/
def DeleteSpan.direction (s : DeleteSpan) : Int :=
  if 0 < s.signed_len then 1 else -1

/-- `DeleteSpan::next_pos`. -/
def DeleteSpan.next_pos (s : DeleteSpan) : Int :=
  if 0 < s.signed_len then s.start else s.start - 1

/-- `DeleteSpan::prev_pos`. -/
def DeleteSpan.prev_pos (s : DeleteSpan) : Int :=
  if 0 < s.signed_len then s.pos else s.endPos

/-- `impl Mergable for DeleteSpan { fn is_mergable }`. -/
def DeleteSpan.is_mergable (s other : DeleteSpan) : Bool :=
  match s.bidirectional, other.bidirectional with
  | true, true => s.pos == other.pos || s.pos == other.pos + 1
  | true, false => s.pos == other.prev_pos
  | false, true => s.next_pos == other.pos
  | false, false => s.next_pos == other.pos && s.direction == other.direction

/-- `impl Mergable for DeleteSpan { fn merge }`.  In the branches where
the source asserts mergeability and would panic, the unreachable arm
returns `s` unchanged; the merge theorems only apply it to mergeable
spans. -/
def DeleteSpan.mergeWith (s other : DeleteSpan) : DeleteSpan :=
  match s.bidirectional, other.bidirectional with
  | true, true =>
    if s.pos = other.pos then { s with signed_len := 2 }
    else if s.pos = other.pos + 1 then { s with signed_len := -2 }
    else s
  | true, false => { s with signed_len := other.signed_len + other.direction }
  | false, true => { s with signed_len := s.signed_len + s.direction }
  | false, false => { s with signed_len := s.signed_len + other.signed_len }

/-- `impl Sliceable for DeleteSpan`. -/
def DeleteSpan.sliceSpan (s : DeleteSpan) (a b : Nat) : DeleteSpan :=
  if 0 < s.signed_len then ⟨s.pos, (b : Int) - (a : Int)⟩
  else ⟨s.pos - (a : Int), (a : Int) - (b : Int)⟩

/-- `DeleteSpanWithId { id_start, span }`: `id_start` is the target id
with the smallest counter no matter whether the span is reversed — the id
of the leftmost element of the target span. -/
structure DeleteSpanWithId where
  id_start : ID
  span : DeleteSpan
  deriving DecidableEq, Repr

/-- `impl HasLength for DeleteSpanWithId`. -/
def DeleteSpanWithId.content_len (d : DeleteSpanWithId) : Nat :=
  d.span.content_len

/-- `HasIdSpan::id_end` (from `loro-common`, not under the sources;
modelled as the exclusive end id): the start id advanced by the atom
length. -/
def DeleteSpanWithId.id_end (d : DeleteSpanWithId) : ID :=
  d.id_start.inc d.content_len

/-- `impl Mergable for DeleteSpanWithId { fn is_mergable }`: positional
mergeability of the spans plus continuity of the ids. -/
def DeleteSpanWithId.is_mergable (d rhs : DeleteSpanWithId) : Bool :=
  let this := d.span
  let other := rhs.span
  match this.bidirectional, other.bidirectional with
  | true, true =>
    (this.pos == other.pos && d.id_start.inc 1 == rhs.id_start)
      || (this.pos == other.pos + 1 && d.id_start == rhs.id_start.inc 1)
  | true, false =>
    if this.pos = other.prev_pos then
      if 0 < other.signed_len then d.id_start.inc 1 == rhs.id_start
      else d.id_start == rhs.id_end
    else false
  | false, true =>
    if this.next_pos = other.pos then
      if 0 < this.signed_len then d.id_end == rhs.id_start
      else d.id_start == rhs.id_start.inc 1
    else false
  | false, false =>
    if this.next_pos = other.pos && this.direction == other.direction then
      if 0 < d.span.signed_len then d.id_end == rhs.id_start
      else d.id_start == rhs.id_end
    else false

/-- `impl Mergable for DeleteSpanWithId { fn merge }`: keep the smaller
start counter and merge the spans. -/
def DeleteSpanWithId.mergeWith (d rhs : DeleteSpanWithId) : DeleteSpanWithId :=
  { id_start := ⟨d.id_start.peer, min rhs.id_start.counter d.id_start.counter⟩,
    span := d.span.mergeWith rhs.span }

/-- `impl Sliceable for DeleteSpanWithId`: slicing a reversed span
re-anchors `id_start` by `atom_len - to`; a forward span by `from`. -/
def DeleteSpanWithId.sliceSpan (d : DeleteSpanWithId) (a b : Nat) : DeleteSpanWithId :=
  { id_start :=
      if 0 < d.span.signed_len then d.id_start.inc a
      else d.id_start.inc (d.content_len - b),
    span := d.span.sliceSpan a b }

/-- `IdLp { lamport, peer }`. -/
structure IdLp where
  lamport : Nat
  peer : Nat
  deriving DecidableEq, Repr

/-- `InnerListOp`: the op content variants of the sequence containers
(`list_op.rs`). -/
inductive InnerListOp where
  | insert (slice : SliceRange) (pos : Nat)
  | insertText (slice : BytesSlice) (unicode_start : Nat) (unicode_len : Nat) (pos : Nat)
  | delete (span : DeleteSpanWithId)
  | move (fromIdx : Nat) (elem_id : IdLp) (toIdx : Nat)
  | set (elem_id : IdLp) (value : LoroValue)
  | styleStart (start : Nat) (stop : Nat) (key : List Nat) (value : LoroValue) (info : Nat)
  | styleEnd

/-- `impl HasLength for InnerListOp`. -/
def InnerListOp.content_len : InnerListOp → Nat
  | .insert slice _ => slice.content_len
  | .insertText _ _ len _ => len
  | .delete span => span.content_len
  | .move _ _ _ => 1
  | .set _ _ => 1
  | .styleStart _ _ _ _ _ => 1
  | .styleEnd => 1

/-- `impl Mergable for InnerListOp { fn is_mergable }`. -/
def InnerListOp.is_mergable : InnerListOp → InnerListOp → Bool
  | .insert slice pos, .insert other_slice other_pos =>
    pos + slice.content_len == other_pos && slice.is_mergable other_slice
  | .delete span, .delete other_span => span.is_mergable other_span
  | .insertText slice us len pos, .insertText other_slice other_us _ other_pos =>
    pos + len == other_pos && slice.can_merge other_slice && us + len == other_us
  | _, _ => false

/-- `impl Mergable for InnerListOp { fn merge }`.  Variant pairs the
source marks unreachable return the left op unchanged. -/
def InnerListOp.mergeWith : InnerListOp → InnerListOp → InnerListOp
  | .insert slice pos, .insert other_slice _ => .insert (slice.mergeWith other_slice) pos
  | .delete span, .delete other_span => .delete (span.mergeWith other_span)
  | .insertText slice us len pos, .insertText other_slice _ other_len _ =>
    .insertText (slice.mergeWith other_slice) us (len + other_len) pos
  | a, _ => a

/-- `impl Sliceable for InnerListOp`: the text-insert branch converts the
unicode range to a byte range through the unicode↔byte map `cw` of the
document's text buffer. -/
def InnerListOp.sliceOp (cw : List Nat) : InnerListOp → Nat → Nat → InnerListOp
  | .insert slice pos, a, b => .insert (slice.slice a b) (pos + a)
  | .insertText slice us _ pos, a, b =>
    .insertText (slice.sliceBytes (u2bRange cw us a b).1 (u2bRange cw us a b).2)
      (us + a) (b - a) (pos + a)
  | .delete span, a, b => .delete (span.sliceSpan a b)
  | op, _, _ => op

/-- `InnerContent` (`op/content.rs`, not under the sources).  Modelled
from the spec: the op content is a type-specific variant — text insert,
text delete-span-with-origin-id, list slice insert, move, set, style
start/end — i.e. exactly the `InnerListOp` variants, to which the
`InnerContent` impls delegate. -/
inductive InnerContent where
  | list (op : InnerListOp)

/-- The wrapped list op. -/
def InnerContent.op : InnerContent → InnerListOp
  | .list o => o

/-- `impl HasLength for InnerContent`: delegation. -/
def InnerContent.content_len (c : InnerContent) : Nat :=
  c.op.content_len

/-- `impl Mergable for InnerContent`: delegation. -/
def InnerContent.is_mergable (c other : InnerContent) : Bool :=
  c.op.is_mergable other.op

/-- `InnerContent` merge: delegation. -/
def InnerContent.mergeWith (c other : InnerContent) : InnerContent :=
  .list (c.op.mergeWith other.op)

/-- `impl Sliceable for InnerContent`: delegation. -/
def InnerContent.sliceOp (cw : List Nat) (c : InnerContent) (a b : Nat) : InnerContent :=
  .list (c.op.sliceOp cw a b)

/-- `Op { counter, container, content }` (`op.rs`); `container` is the
arena index `ContainerIdx`. -/
structure Op where
  counter : Nat
  container : Nat
  content : InnerContent

/-- `Op::content_len`, also its `atom_len`. -/
def Op.content_len (o : Op) : Nat :=
  o.content.content_len

/-- `impl Mergable for Op`: counters abut, same container, mergeable
contents. -/
def Op.is_mergable (o other : Op) : Bool :=
  o.counter + o.content_len == other.counter && o.container == other.container
    && o.content.is_mergable other.content

/-- `impl Mergable for Op { fn merge }`: merge the contents, keeping the
left op's counter and container. -/
def Op.mergeWith (o other : Op) : Op :=
  { o with content := o.content.mergeWith other.content }

/-- `impl Sliceable for Op`: slice the content and advance the counter by
`from`. -/
def Op.sliceOp (cw : List Nat) (o : Op) (a b : Nat) : Op :=
  { counter := o.counter + a, container := o.container, content := o.content.sliceOp cw a b }

/-- Well-formedness of an op against the text buffer's unicode↔byte map
`cw`: a text insert's byte slice must cover exactly the chars
`[unicode_start, unicode_start + unicode_len)` of the buffer.  All other
variants carry no byte range and are unconstrained. -/
def Op.TextWF (cw : List Nat) (o : Op) : Prop :=
  match o.content.op with
  | .insertText slice us len _ =>
    slice.start = byteOff cw us ∧ slice.stop = byteOff cw (us + len)
  | _ => True

/-- The counter of the id targeted by the `i`-th atomic deletion of a
delete span: a forward span deletes left to right starting at `id_start`,
a reversed span deletes right to left ending at `id_start` (per the
`DeleteSpanWithId` doc comment, `id_start` is the id of the leftmost
element of the target span). -/
def DeleteSpanWithId.atomCounter (d : DeleteSpanWithId) (i : Nat) : Nat :=
  if 0 < d.span.signed_len then d.id_start.counter + i
  else d.id_start.counter + (d.content_len - 1 - i)

/-- The contribution of one worklist entry `(v, d)` to the final value of
`get_depth`'s running maximum: nothing for a leaf, `d + valueDepth v` for
a list or map popped at depth `d`. -/
def depthContrib (e : LoroValue × Nat) : Nat :=
  if valueDepth e.1 = 0 then 0 else e.2 + valueDepth e.1

/-- The maximum contribution of a worklist. -/
def stackMax (stack : List (LoroValue × Nat)) : Nat :=
  (stack.map depthContrib).foldr max 0

/-- The claim that `update_frontiers_on_new_change`, on a frontier whose
same-peer ids all have smaller counters than the new id and whose
entries dominate all same-peer deps, returns a frontier containing the
new id, no other id of its peer, no id equal to a dep, and every other
retained id of the input. -/
def UpdateFrontiersClaim : Prop :=
  ∀ (f : Frontiers) (id : ID) (deps : List ID),
    (∀ e ∈ f, e.peer = id.peer → e.counter < id.counter) →
    (∀ e ∈ f, ∀ d ∈ deps, d.peer = e.peer → d.counter ≤ e.counter) →
    ∃ f', f.update_frontiers_on_new_change id deps = some f' ∧
      id ∈ f' ∧
      (∀ e ∈ f', e.peer = id.peer → e = id) ∧
      (∀ e ∈ f', e ∉ deps) ∧
      (∀ e ∈ f, e.peer ≠ id.peer → e ∉ deps → e ∈ f')

/-! # Theorems -/

/-! ## C6: last-writer-wins on `(lamport, peer)` -/

theorem compare_nat_lt_iff {a b : Nat} : compare a b = .lt ↔ a < b := by
  simp [compare, compareOfLessAndEq] <;> omega

theorem compare_nat_eq_iff {a b : Nat} : compare a b = .eq ↔ a = b := by
  simp [compare, compareOfLessAndEq] <;> omega

theorem compare_nat_gt_iff {a b : Nat} : compare a b = .gt ↔ b < a := by
  simp [compare, compareOfLessAndEq] <;> omega

/-- **C6.**  Concurrent writes to the same style key resolve to the
highest `(lamport, peer)` pair: `StyleOp`'s order is lexicographic on
`(lamport, peer)`, and `StyleMetaItem::try_replace` overwrites the stored
entry exactly when the incoming entry's `(lamport, peer)` is strictly
greater, leaving it unchanged otherwise. -/
theorem styleop_lww :
    (∀ s o : StyleOp,
      (s.cmp o = .lt ↔ lamportPeerLt (s.lamport, s.peer) (o.lamport, o.peer)) ∧
      (s.cmp o = .gt ↔ lamportPeerLt (o.lamport, o.peer) (s.lamport, s.peer)) ∧
      (s.cmp o = .eq ↔ s.lamport = o.lamport ∧ s.peer = o.peer)) ∧
    (∀ (V : Type) (s o : StyleMetaItem V),
      s.try_replace o =
        if lamportPeerLt (s.lamport, s.peer) (o.lamport, o.peer) then o else s) := by
  constructor
  · intro s o
    rcases lt_trichotomy s.lamport o.lamport with h | h | h
    · have h1 : compare s.lamport o.lamport = .lt := compare_nat_lt_iff.mpr h
      simp [StyleOp.cmp, h1, Ordering.then, lamportPeerLt]
      omega
    · have h1 : compare s.lamport o.lamport = .eq := compare_nat_eq_iff.mpr h
      rcases lt_trichotomy s.peer o.peer with h2 | h2 | h2
      · have h3 : compare s.peer o.peer = .lt := compare_nat_lt_iff.mpr h2
        simp [StyleOp.cmp, h1, h3, Ordering.then, lamportPeerLt]
        omega
      · have h3 : compare s.peer o.peer = .eq := compare_nat_eq_iff.mpr h2
        simp [StyleOp.cmp, h1, h3, Ordering.then, lamportPeerLt]
        omega
      · have h3 : compare s.peer o.peer = .gt := compare_nat_gt_iff.mpr h2
        simp [StyleOp.cmp, h1, h3, Ordering.then, lamportPeerLt]
        omega
    · have h1 : compare s.lamport o.lamport = .gt := compare_nat_gt_iff.mpr h
      simp [StyleOp.cmp, h1, Ordering.then, lamportPeerLt]
      omega
  · intro V s o
    by_cases h : lamportPeerLt (s.lamport, s.peer) (o.lamport, o.peer)
    · simp [StyleMetaItem.try_replace, h]
    · simp [StyleMetaItem.try_replace, h]

/-! ## C5: slicing a delete span re-anchors the start id -/

/-- **C5.**  For a delete span of length `n` and a slice `[a, b)` with
`a < b ≤ n`: a reversed span's slice starts at `id_start + (n - b)`, a
forward span's at `id_start + a`; in both cases the slice's `id_start`
carries the smallest counter among the ids targeted by the sliced atoms
(the leftmost element of the sliced target span). -/
theorem delete_slice_reanchor (d : DeleteSpanWithId) (n a b : Nat)
    (hn : n = d.content_len) (hne : d.span.signed_len ≠ 0) (hab : a < b) (hbn : b ≤ n) :
    ((d.span.signed_len < 0 → (d.sliceSpan a b).id_start = d.id_start.inc (n - b)) ∧
     (0 < d.span.signed_len → (d.sliceSpan a b).id_start = d.id_start.inc a)) ∧
    (∀ i, a ≤ i → i < b → (d.sliceSpan a b).id_start.counter ≤ d.atomCounter i) ∧
    (∃ i, a ≤ i ∧ i < b ∧ (d.sliceSpan a b).id_start.counter = d.atomCounter i) := by
  have hlen : d.content_len = n := hn.symm
  rcases lt_trichotomy d.span.signed_len 0 with hneg | hzero | hpos
  · have hnotpos : ¬ 0 < d.span.signed_len := by omega
    refine ⟨⟨fun _ => ?_, fun h => absurd h hnotpos⟩, ?_, ?_⟩
    · simp [DeleteSpanWithId.sliceSpan, hnotpos, hlen]
    · intro i hai hib
      simp only [DeleteSpanWithId.sliceSpan, hnotpos, if_false, DeleteSpanWithId.atomCounter,
        ID.inc, hlen]
      omega
    · refine ⟨b - 1, by omega, by omega, ?_⟩
      simp only [DeleteSpanWithId.sliceSpan, hnotpos, if_false, DeleteSpanWithId.atomCounter,
        ID.inc, hlen]
      omega
  · exact absurd hzero hne
  · have hnotneg : ¬ d.span.signed_len < 0 := by omega
    refine ⟨⟨fun h => absurd h hnotneg, fun _ => ?_⟩, ?_, ?_⟩
    · simp [DeleteSpanWithId.sliceSpan, hpos]
    · intro i hai hib
      simp only [DeleteSpanWithId.sliceSpan, hpos, if_true, DeleteSpanWithId.atomCounter,
        ID.inc] <;> omega
    · refine ⟨a, le_refl a, hab, ?_⟩
      simp only [DeleteSpanWithId.sliceSpan, hpos, if_true, DeleteSpanWithId.atomCounter,
        ID.inc] <;> omega

/-- Witness for C5 at a concrete reversed span: deleting backwards over
ids `9, 10, 11` (`signed_len = -3`), the slice `[1, 2)` targets the
middle element and is re-anchored to counter `9 + (3 - 2) = 10`. -/
theorem delete_slice_reanchor_witness :
    (DeleteSpanWithId.sliceSpan ⟨⟨4, 9⟩, ⟨7, -3⟩⟩ 1 2).id_start = ID.inc ⟨4, 9⟩ (3 - 2) :=
  (delete_slice_reanchor ⟨⟨4, 9⟩, ⟨7, -3⟩⟩ 3 1 2 (by decide) (by decide) (by decide)
    (by decide)).1.1 (by decide)

/-! ## Version-vector lookup lemmas -/

theorem get_eq_none_iff (vv : VersionVector) (p : Nat) :
    vv.get p = none ↔ p ∉ vv.keys := by
  induction vv with
  | nil => simp [VersionVector.get, VersionVector.keys]
  | cons e rest ih =>
    rcases e with ⟨k, c⟩
    simp only [VersionVector.get, VersionVector.keys, List.map_cons, List.mem_cons]
    split_ifs with h
    · subst h; simp
    · simp only [ih, VersionVector.keys]
      constructor
      · intro hn hm; rcases hm with hm | hm
        · exact h hm.symm
        · exact hn hm
      · intro hn; exact fun hm => hn (Or.inr hm)

theorem get_mem_nodup (vv : VersionVector) (hv : vv.keys.Nodup) (e : Nat × Nat)
    (he : e ∈ vv) : vv.get e.1 = some e.2 := by
  induction vv with
  | nil => simp at he
  | cons f rest ih =>
    rcases f with ⟨k, c⟩
    simp only [VersionVector.keys, List.map_cons, List.nodup_cons] at hv
    rcases List.mem_cons.mp he with he1 | he1
    · subst he1; simp [VersionVector.get]
    · have hne : k ≠ e.1 := by
        intro hk
        exact hv.1 (by simpa [hk, VersionVector.keys] using List.mem_map_of_mem Prod.fst he1)
      simp only [VersionVector.get, if_neg hne]
      exact ih hv.2 he1

theorem getD_mem_nodup (vv : VersionVector) (hv : vv.keys.Nodup) (e : Nat × Nat)
    (he : e ∈ vv) : vv.getD e.1 = e.2 := by
  simp [VersionVector.getD, get_mem_nodup vv hv e he]

theorem get_setEntry (vv : VersionVector) (p x q : Nat) :
    (vv.setEntry p x).get q = if q = p then (vv.get p).map (fun _ => x) else vv.get q := by
  induction vv with
  | nil => simp [VersionVector.setEntry, VersionVector.get]
  | cons e rest ih =>
    rcases e with ⟨k, c⟩
    by_cases hk : k = p <;> by_cases hq : q = p <;> by_cases hkq : k = q <;>
      simp_all [VersionVector.setEntry, VersionVector.get]

theorem get_removeEntry (vv : VersionVector) (p q : Nat) :
    (vv.removeEntry p).get q = if q = p then none else vv.get q := by
  induction vv with
  | nil => simp [VersionVector.removeEntry, VersionVector.get]
  | cons e rest ih =>
    rcases e with ⟨k, c⟩
    by_cases hk : k = p <;> by_cases hq : q = p <;> by_cases hkq : k = q <;>
      simp_all [VersionVector.removeEntry, VersionVector.get]

theorem get_insertEntry (vv : VersionVector) (p x q : Nat) :
    (vv.insertEntry p x).get q =
      match vv.get q with
      | some c => some c
      | none => if p = q then some x else none := by
  induction vv with
  | nil => simp [VersionVector.insertEntry, VersionVector.get]
  | cons e rest ih =>
    rcases e with ⟨k, c⟩
    simp only [VersionVector.insertEntry, List.cons_append, VersionVector.get] at *
    by_cases hkq : k = q
    · simp [hkq]
    · simp only [if_neg hkq]
      exact ih

/-! ## C3: retreat then forward -/

/-- Pointwise effect of one `extend_to_include`. -/
theorem getD_extend (vv : VersionVector) (e : Nat × CounterSpan) (q : Nat) :
    (vv.extend_to_include e).getD q =
      if e.1 = q then max (vv.getD q) e.2.norm_end else vv.getD q := by
  rcases e with ⟨p, cs⟩
  simp only [VersionVector.extend_to_include]
  rcases hg : vv.get p with _ | c
  · simp only [VersionVector.getD, get_insertEntry, hg]
    by_cases hq : p = q
    · subst hq; simp [hg]
    · simp [hq]
      rcases h2 : vv.get q <;> simp
  · by_cases hlt : c < cs.norm_end
    · simp only [if_pos hlt, VersionVector.getD, get_setEntry]
      by_cases hq : p = q
      · subst hq; simp [hg]; omega
      · have : ¬ q = p := fun h => hq h.symm
        simp [this, hq]
    · simp only [if_neg hlt, VersionVector.getD]
      by_cases hq : p = q
      · subst hq; simp [hg]; omega
      · simp [hq]

/-- Pointwise effect of one `shrink_to_exclude`. -/
theorem getD_shrink (vv : VersionVector) (e : Nat × CounterSpan) (q : Nat) :
    (vv.shrink_to_exclude e).getD q =
      if e.1 = q then min (vv.getD q) e.2.minVal else vv.getD q := by
  rcases e with ⟨p, cs⟩
  simp only [VersionVector.shrink_to_exclude]
  by_cases h0 : cs.minVal = 0
  · simp only [if_pos h0, VersionVector.getD, get_removeEntry]
    by_cases hq : p = q
    · subst hq; simp [h0]
    · have : ¬ q = p := fun h => hq h.symm
      simp [this, hq]
  · simp only [if_neg h0]
    rcases hg : vv.get p with _ | c
    · by_cases hq : p = q
      · subst hq; simp [VersionVector.getD, hg] <;> omega
      · simp [hq]
    · by_cases hlt : cs.minVal < c
      · simp only [if_pos hlt, VersionVector.getD, get_setEntry]
        by_cases hq : p = q
        · subst hq; simp [hg]; omega
        · have : ¬ q = p := fun h => hq h.symm
          simp [this, hq]
      · simp only [if_neg hlt, VersionVector.getD]
        by_cases hq : p = q
        · subst hq; simp [hg]; omega
        · simp [hq]

/-- Pointwise characterization of `retreat` as a fold of clamped minima. -/
theorem getD_retreat (S : IdSpanVector) (vv : VersionVector) (q : Nat) :
    (vv.retreat S).getD q =
      S.foldl (fun c e => if e.1 = q then min c e.2.minVal else c) (vv.getD q) := by
  induction S generalizing vv with
  | nil => rfl
  | cons e S ih =>
    simp only [VersionVector.retreat, List.foldl_cons] at *
    rw [ih, getD_shrink]

/-- Pointwise characterization of `forward` as a fold of clamped maxima. -/
theorem getD_forward (S : IdSpanVector) (vv : VersionVector) (q : Nat) :
    (vv.forward S).getD q =
      S.foldl (fun c e => if e.1 = q then max c e.2.norm_end else c) (vv.getD q) := by
  induction S generalizing vv with
  | nil => rfl
  | cons e S ih =>
    simp only [VersionVector.forward, List.foldl_cons] at *
    rw [ih, getD_extend]

theorem fold_min_le (S : IdSpanVector) (q : Nat) (c : Nat) :
    S.foldl (fun c e => if e.1 = q then min c e.2.minVal else c) c ≤ c := by
  induction S generalizing c with
  | nil => simp
  | cons e S ih =>
    simp only [List.foldl_cons]
    by_cases h : e.1 = q
    · simp only [if_pos h]
      exact le_trans (ih _) (by omega)
    · simp only [if_neg h]
      exact ih c

theorem fold_min_skip (S : IdSpanVector) (q : Nat) (c : Nat)
    (h : ∀ e ∈ S, e.1 ≠ q) :
    S.foldl (fun c e => if e.1 = q then min c e.2.minVal else c) c = c := by
  induction S generalizing c with
  | nil => rfl
  | cons e S ih =>
    simp only [List.foldl_cons, if_neg (h e (by simp))]
    exact ih c fun x hx => h x (by simp [hx])

theorem fold_max_skip (S : IdSpanVector) (q : Nat) (c : Nat)
    (h : ∀ e ∈ S, e.1 ≠ q) :
    S.foldl (fun c e => if e.1 = q then max c e.2.norm_end else c) c = c := by
  induction S generalizing c with
  | nil => rfl
  | cons e S ih =>
    simp only [List.foldl_cons, if_neg (h e (by simp))]
    exact ih c fun x hx => h x (by simp [hx])

theorem fold_max_stay (S : IdSpanVector) (q B : Nat)
    (h : ∀ e ∈ S, e.1 = q → e.2.norm_end = B) :
    S.foldl (fun c e => if e.1 = q then max c e.2.norm_end else c) B = B := by
  induction S with
  | nil => rfl
  | cons e S ih =>
    simp only [List.foldl_cons]
    by_cases hq : e.1 = q
    · have hB := h e (by simp) hq
      simp only [if_pos hq, hB, max_self]
      exact ih fun x hx => h x (by simp [hx])
    · simp only [if_neg hq]
      exact ih fun x hx => h x (by simp [hx])

theorem fold_max_reach (S : IdSpanVector) (q B : Nat) (c : Nat)
    (hc : c ≤ B) (h : ∀ e ∈ S, e.1 = q → e.2.norm_end = B)
    (hex : ∃ e ∈ S, e.1 = q) :
    S.foldl (fun c e => if e.1 = q then max c e.2.norm_end else c) c = B := by
  induction S generalizing c with
  | nil => simp at hex
  | cons e S ih =>
    simp only [List.foldl_cons]
    by_cases hq : e.1 = q
    · have hB := h e (by simp) hq
      have : max c e.2.norm_end = B := by omega
      simp only [if_pos hq, this]
      exact fold_max_stay S q B fun x hx => h x (by simp [hx])
    · simp only [if_neg hq]
      rcases hex with ⟨f, hf, hfq⟩
      rcases List.mem_cons.mp hf with rfl | hf'
      · exact absurd hfq hq
      · exact ih c hc (fun x hx => h x (by simp [hx])) ⟨f, hf', hfq⟩

/-- `keys` is unchanged by `setEntry`. -/
theorem keys_setEntry (vv : VersionVector) (p x : Nat) :
    (vv.setEntry p x).keys = vv.keys := by
  induction vv with
  | nil => rfl
  | cons e rest ih =>
    simp only [VersionVector.setEntry, VersionVector.keys, List.map_cons] at *
    by_cases h : e.1 = p
    · simp [h, ih]
    · simp [h, ih]

theorem removeEntry_sublist (vv : VersionVector) (p : Nat) :
    (vv.removeEntry p).Sublist vv := by
  induction vv with
  | nil => simp [VersionVector.removeEntry]
  | cons e rest ih =>
    simp only [VersionVector.removeEntry]
    split_ifs
    · exact ih.cons e
    · exact ih.cons₂ e

theorem keys_nodup_extend (vv : VersionVector) (e : Nat × CounterSpan)
    (hv : vv.keys.Nodup) : (vv.extend_to_include e).keys.Nodup := by
  simp only [VersionVector.extend_to_include]
  rcases hg : vv.get e.1 with _ | c
  · have hmem : e.1 ∉ vv.keys := (get_eq_none_iff vv e.1).mp hg
    simp only [VersionVector.insertEntry, VersionVector.keys, List.map_append,
      List.map_cons, List.map_nil]
    refine List.Nodup.append hv (List.nodup_singleton _) ?_
    intro a ha hb
    simp only [List.mem_singleton] at hb
    exact hmem (hb ▸ ha)
  · simp only [hg]
    split_ifs
    · have hkeys := keys_setEntry vv e.1 e.2.norm_end
      rw [hkeys]
      exact hv
    · exact hv

theorem keys_nodup_shrink (vv : VersionVector) (e : Nat × CounterSpan)
    (hv : vv.keys.Nodup) : (vv.shrink_to_exclude e).keys.Nodup := by
  simp only [VersionVector.shrink_to_exclude]
  split_ifs
  · exact List.Nodup.sublist (List.Sublist.map _ (removeEntry_sublist vv e.1)) hv
  · rcases hg : vv.get e.1 with _ | c
    · simp only [hg]
      exact hv
    · simp only [hg]
      split_ifs
      · have hkeys := keys_setEntry vv e.1 e.2.minVal
        rw [hkeys]
        exact hv
      · exact hv

theorem keys_nodup_retreat (S : IdSpanVector) (vv : VersionVector)
    (hv : vv.keys.Nodup) : (vv.retreat S).keys.Nodup := by
  induction S generalizing vv with
  | nil => exact hv
  | cons e S ih =>
    exact ih (vv.shrink_to_exclude e) (keys_nodup_shrink vv e hv)

theorem keys_nodup_forward (S : IdSpanVector) (vv : VersionVector)
    (hv : vv.keys.Nodup) : (vv.forward S).keys.Nodup := by
  induction S generalizing vv with
  | nil => exact hv
  | cons e S ih =>
    exact ih (vv.extend_to_include e) (keys_nodup_extend vv e hv)

/-- `PartialEq` for version vectors follows from pointwise `getD`
agreement when both key lists are duplicate-free. -/
theorem vv_eq_of_pointwise (a b : VersionVector) (ha : a.keys.Nodup) (hb : b.keys.Nodup)
    (h : ∀ q, a.getD q = b.getD q) : a.vv_eq b = true := by
  simp only [VersionVector.vv_eq, Bool.and_eq_true, List.all_eq_true]
  constructor
  · intro e he
    have := getD_mem_nodup a ha e he
    simp [← h e.1, this]
  · intro e he
    have := getD_mem_nodup b hb e he
    simp [h e.1, this]

/-- **C3 counterexample.**  Retreat then forward is not the identity on
every version vector: with `v = {0: 5}` and the span set `{0: [0, 2)}`,
retreating removes peer `0` entirely and forwarding reinstates it only up
to counter `2`, so the result `{0: 2}` differs from `v`. -/
theorem retreat_forward_counterexample :
    VersionVector.vv_eq
      ((VersionVector.retreat [(0, 5)] [(0, ⟨0, 2⟩)]).forward [(0, ⟨0, 2⟩)])
      [(0, 5)] = false := by decide

/-- **C3 (amended).**  Retreat then forward restores `v` for exactly the
span sets produced by DAG path queries: whenever every span's
`norm_end` equals `v`'s current end counter for that peer (the spans sit
at the top of `v`), `forward(retreat(v, S), S)` equals `v` as a version
vector. -/
theorem retreat_forward_restores (v : VersionVector) (S : IdSpanVector)
    (hv : v.keys.Nodup)
    (hS : ∀ e ∈ S, v.getD e.1 = e.2.norm_end) :
    VersionVector.vv_eq ((v.retreat S).forward S) v = true := by
  have hpoint : ∀ q, ((v.retreat S).forward S).getD q = v.getD q := by
    intro q
    rw [getD_forward, getD_retreat]
    by_cases hex : ∃ e ∈ S, e.1 = q
    · have hB : ∀ e ∈ S, e.1 = q → e.2.norm_end = v.getD q := by
        intro e he heq
        rw [← hS e he, heq]
      exact fold_max_reach S q (v.getD q) _ (fold_min_le S q (v.getD q)) hB hex
    · push_neg at hex
      rw [fold_min_skip S q _ hex, fold_max_skip S q _ hex]
  exact vv_eq_of_pointwise _ v (keys_nodup_forward S _ (keys_nodup_retreat S v hv)) hv hpoint

/-- Witness for C3 at a concrete input: `v = {0: 5}`, spans `{0: [2, 5)}`
whose `norm_end` is `v`'s counter; retreat lowers peer `0` to `2` and
forward restores `5`. -/
theorem retreat_forward_restores_witness :
    VersionVector.vv_eq
      ((VersionVector.retreat [(0, 5)] [(0, ⟨2, 5⟩)]).forward [(0, ⟨2, 5⟩)])
      [(0, 5)] = true :=
  retreat_forward_restores [(0, 5)] [(0, ⟨2, 5⟩)] (by decide) (by decide)

/-! ## C7: frontier equality -/

/-- Two duplicate-free lists of equal length with a one-way inclusion
have the same members. -/
theorem mem_iff_of_nodup_subset {a b : List ID} (ha : a.Nodup) (hb : b.Nodup)
    (hlen : a.length = b.length) (hsub : ∀ x ∈ a, x ∈ b) : ∀ x, x ∈ a ↔ x ∈ b := by
  have hsub' : a.toFinset ⊆ b.toFinset := by
    intro x hx
    simp only [List.mem_toFinset] at *
    exact hsub x hx
  have hcard : b.toFinset.card ≤ a.toFinset.card := by
    rw [List.toFinset_card_of_nodup ha, List.toFinset_card_of_nodup hb]
    omega
  have heq := Finset.eq_of_subset_of_card_le hsub' hcard
  intro x
  rw [← List.mem_toFinset, ← List.mem_toFinset (l := b), heq]

/-- **C7 counterexample.**  `Frontiers` equality is not set-equality on
all representable values: the sequences `[(0,0), (0,0)]` and
`[(0,0), (1,0)]` compare equal (equal lengths, and every element of the
first occurs in the second), yet `(1,0)` belongs only to the second. -/
theorem frontiers_eq_counterexample :
    Frontiers.frontiers_eq [⟨0, 0⟩, ⟨0, 0⟩] [⟨0, 0⟩, ⟨1, 0⟩] = true ∧
    ((⟨1, 0⟩ : ID) ∈ ([⟨0, 0⟩, ⟨1, 0⟩] : Frontiers)) ∧
    ((⟨1, 0⟩ : ID) ∉ ([⟨0, 0⟩, ⟨0, 0⟩] : Frontiers)) :=
  ⟨by decide, by decide, by decide⟩

/-- **C7 (amended).**  On frontiers whose stored sequences contain no
duplicate id — the only values the minimal-antichain invariant admits —
`Frontiers::eq` holds exactly when the two sequences contain the same set
of ids, regardless of storage order. -/
theorem frontiers_eq_iff_set_eq (a b : Frontiers) (ha : a.Nodup) (hb : b.Nodup) :
    a.frontiers_eq b = true ↔ ∀ x : ID, x ∈ a ↔ x ∈ b := by
  constructor
  · intro h
    by_cases hlen : a.length = b.length
    · have hne : ¬ a.length ≠ b.length := by simp [hlen]
      simp only [Frontiers.frontiers_eq, if_neg hne] at h
      by_cases h1 : a.length ≤ 1
      · rw [if_pos h1] at h
        have hab : a = b := by simpa using h
        simp [hab]
      · rw [if_neg h1] at h
        by_cases h10 : a.length ≤ 10
        · rw [if_pos h10, List.all_eq_true] at h
          have hsub : ∀ x ∈ a, x ∈ b := by
            intro x hx
            simpa [List.elem_iff] using h x hx
          exact mem_iff_of_nodup_subset ha hb hlen hsub
        · rw [if_neg h10, List.all_eq_true] at h
          have hsub : ∀ x ∈ b, x ∈ a := by
            intro x hx
            simpa [List.elem_iff] using h x hx
          intro x
          exact (mem_iff_of_nodup_subset hb ha hlen.symm hsub x).symm
    · simp only [Frontiers.frontiers_eq, if_pos hlen] at h
      simp at h
  · intro h
    have hfin : a.toFinset = b.toFinset := by
      ext x
      simpa using h x
    have hlen : a.length = b.length := by
      rw [← List.toFinset_card_of_nodup ha, ← List.toFinset_card_of_nodup hb, hfin]
    have hne : ¬ a.length ≠ b.length := by simp [hlen]
    simp only [Frontiers.frontiers_eq, if_neg hne]
    by_cases h1 : a.length ≤ 1
    · rw [if_pos h1]
      have hab : a = b := by
        rcases a with _ | ⟨x, t⟩
        · rcases b with _ | ⟨y, s⟩
          · rfl
          · simp at hlen
        · have ht : t = [] := by
            simp only [List.length_cons] at h1
            exact List.eq_nil_of_length_eq_zero (by omega)
          subst ht
          rcases b with _ | ⟨y, s⟩
          · simp at hlen
          · have hs : s = [] := by
              simp only [List.length_cons, List.length_nil] at hlen
              exact List.eq_nil_of_length_eq_zero (by omega)
            subst hs
            have hx := (h x).mp (by simp)
            simp only [List.mem_singleton] at hx
            rw [hx]
      simp [hab]
    · rw [if_neg h1]
      by_cases h10 : a.length ≤ 10
      · rw [if_pos h10, List.all_eq_true]
        intro x hx
        simpa [List.elem_iff] using (h x).mp hx
      · rw [if_neg h10, List.all_eq_true]
        intro x hx
        simpa [List.elem_iff] using (h x).mpr hx

/-- Witness for C7: two duplicate-free two-element frontiers stored in
opposite orders compare equal. -/
theorem frontiers_eq_iff_set_eq_witness :
    Frontiers.frontiers_eq [⟨0, 0⟩, ⟨1, 1⟩] [⟨1, 1⟩, ⟨0, 0⟩] = true :=
  (frontiers_eq_iff_set_eq [⟨0, 0⟩, ⟨1, 1⟩] [⟨1, 1⟩, ⟨0, 0⟩] (by decide) (by decide)).mpr
    (fun x => by
      simp only [List.mem_cons, List.not_mem_nil, or_false]
      tauto)

/-! ## C10: frontier update on a new change -/

theorem depsAnySame_eq (deps : List ID) (e : ID)
    (h : ∀ d ∈ deps, d.peer = e.peer → d.counter ≤ e.counter) :
    depsAnySame deps e = some (deps.contains e) := by
  induction deps with
  | nil => rfl
  | cons d rest ih =>
    simp only [depsAnySame]
    by_cases hp : d.peer = e.peer
    · have hle := h d (by simp) hp
      have hnlt : ¬ e.counter < d.counter := by omega
      simp only [if_pos hp, if_neg hnlt]
      by_cases hc : d.counter = e.counter
      · have hde : e = d := by
          cases d; cases e; simp_all
        simp [if_pos hc, hde, List.contains_cons]
      · have hde : ¬ e == d := by
          cases d; cases e; simp_all; omega
        simp only [if_neg hc, List.contains_cons, hde, Bool.false_or]
        exact ih fun x hx hxp => h x (by simp [hx]) hxp
    · have hde : ¬ e == d := by
        cases d; cases e
        simp_all
        omega
      simp only [if_neg hp, List.contains_cons, hde, Bool.false_or]
      exact ih fun x hx hxp => h x (by simp [hx]) hxp

theorem updateRetain_eq (f : Frontiers) (id : ID) (deps : List ID)
    (h1 : ∀ e ∈ f, e.peer = id.peer → e.counter < id.counter)
    (h2 : ∀ e ∈ f, ∀ d ∈ deps, d.peer = e.peer → d.counter ≤ e.counter) :
    updateRetain id deps f =
      some (f.filter (fun e => !(e.peer == id.peer) && !(deps.contains e))) := by
  induction f with
  | nil => rfl
  | cons e rest ih
    =>
    have ihr := ih (fun x hx => h1 x (by simp [hx])) (fun x hx => h2 x (by simp [hx]))
    simp only [updateRetain, List.filter_cons]
    by_cases hp : e.peer = id.peer
    · simp [if_pos hp, if_pos (h1 e (by simp) hp), ihr, hp]
    · rw [if_neg hp, depsAnySame_eq deps e (h2 e (by simp))]
      have hb : (e.peer == id.peer) = false := by
        simp [hp]
      by_cases hc : deps.contains e
      · simp [ihr, hb, hc]
      · simp only [Bool.not_eq_true] at hc
        simp [ihr, hb, hc]

/-- **C10 counterexample.**  The update does not in general exclude every
dep from the produced frontier: with the empty frontier, a new change
`id = (0,0)` and the (causally impossible) dep list `[(0,0)]`, the claim's
hypotheses hold vacuously, yet the produced frontier `[(0,0)]` contains a
member of `deps`. -/
theorem update_frontiers_counterexample : ¬ UpdateFrontiersClaim := by
  intro h
  obtain ⟨f', hf, -, -, hdeps, -⟩ :=
    h [] ⟨0, 0⟩ [⟨0, 0⟩] (by simp) (by simp)
  have hf' : f' = [⟨0, 0⟩] := by
    simp only [Frontiers.update_frontiers_on_new_change, updateRetain, Option.map_some,
      List.nil_append] at hf
    exact (Option.some.inj hf).symm
  subst hf'
  exact hdeps ⟨0, 0⟩ (by simp) (by simp)

/-- **C10 (amended).**  For a frontier in which every id with the new
change's peer has a strictly smaller counter and every same-peer dep is
dominated by the existing entry, and for a new id that is not itself
among its deps (as causality guarantees),
`update_frontiers_on_new_change` keeps exactly the ids of other peers
not matched by a dep and appends the new id: the result contains `id`,
no other id of `id`'s peer, no dep, and every other retained id. -/
theorem update_frontiers_spec (f : Frontiers) (id : ID) (deps : List ID)
    (h1 : ∀ e ∈ f, e.peer = id.peer → e.counter < id.counter)
    (h2 : ∀ e ∈ f, ∀ d ∈ deps, d.peer = e.peer → d.counter ≤ e.counter)
    (h3 : id ∉ deps) :
    ∃ f', f.update_frontiers_on_new_change id deps = some f' ∧
      f' = f.filter (fun e => !(e.peer == id.peer) && !(deps.contains e)) ++ [id] ∧
      id ∈ f' ∧
      (∀ e ∈ f', e.peer = id.peer → e = id) ∧
      (∀ e ∈ f', e ∉ deps) ∧
      (∀ e ∈ f, e.peer ≠ id.peer → e ∉ deps → e ∈ f') := by
  refine ⟨f.filter (fun e => !(e.peer == id.peer) && !(deps.contains e)) ++ [id], ?_, rfl,
    ?_, ?_, ?_, ?_⟩
  · simp [Frontiers.update_frontiers_on_new_change, updateRetain_eq f id deps h1 h2]
  · simp
  · intro e he hep
    rcases List.mem_append.mp he with hef | hei
    · have := List.of_mem_filter hef
      simp only [Bool.and_eq_true, Bool.not_eq_true', beq_eq_false_iff_ne, ne_eq] at this
      exact absurd hep this.1
    · simpa using hei
  · intro e he
    rcases List.mem_append.mp he with hef | hei
    · have := List.of_mem_filter hef
      simp only [Bool.and_eq_true, Bool.not_eq_true'] at this
      intro hmem
      have : deps.contains e = true := by
        simpa [List.elem_iff] using hmem
      simp_all
    · have : e = id := by simpa using hei
      subst this
      exact h3
  · intro e he hep hmem
    refine List.mem_append.mpr (Or.inl ?_)
    refine List.mem_filter.mpr ⟨he, ?_⟩
    have hb : (e.peer == id.peer) = false := by simp [hep]
    have hc : deps.contains e = false := by
      simp only [Bool.eq_false_iff]
      intro hcc
      exact hmem (by simpa [List.elem_iff] using hcc)
    simp only [hb, Bool.not_false, hc, Bool.and_self]

/-- Witness for C10: frontier `[(1,3), (2,4)]`, new change `(0,7)` with
dep `(1,3)`: the satisfied dep is removed, the other entry is kept, and
the new id is appended. -/
theorem update_frontiers_spec_witness :
    Frontiers.update_frontiers_on_new_change [⟨1, 3⟩, ⟨2, 4⟩] ⟨0, 7⟩ [⟨1, 3⟩] =
      some [⟨2, 4⟩, ⟨0, 7⟩] := by
  obtain ⟨f', hf, hfe, -⟩ :=
    update_frontiers_spec [⟨1, 3⟩, ⟨2, 4⟩] ⟨0, 7⟩ [⟨1, 3⟩] (by decide) (by decide) (by decide)
  rw [hf, hfe]
  rfl

/-! ## C2: `partial_cmp` against subset order on included op ids -/

theorem get_some_mem (vv : VersionVector) (p c : Nat) (h : vv.get p = some c) :
    (p, c) ∈ vv := by
  induction vv with
  | nil => simp [VersionVector.get] at h
  | cons e rest ih =>
    rcases e with ⟨k, x⟩
    simp only [VersionVector.get] at h
    split_ifs at h with hk
    · subst hk
      simp [Option.some.inj h]
    · exact List.mem_cons_of_mem _ (ih h)

/-- One step of `partial_cmp`'s first loop ands each flag with a
per-entry test on the defaulted lookups. -/
theorem cmpStep1_eq (a : VersionVector) (st : CmpFlags) (e : Nat × Nat) :
    cmpStep1 a st e =
      ⟨st.self_greater && decide (e.2 ≤ a.getD e.1),
       st.other_greater && decide (a.getD e.1 ≤ e.2),
       st.eq && decide (a.getD e.1 = e.2)⟩ := by
  rcases st with ⟨sg, og, eq⟩
  simp only [cmpStep1]
  rcases hg : a.get e.1 with _ | c
  · simp only [VersionVector.getD, hg, Option.getD_none]
    split_ifs with h
    · have h1 : ¬ e.2 ≤ 0 := by omega
      have h2 : ¬ (0 : Nat) = e.2 := by omega
      simp [h1, h2]
    · have h1 : e.2 = 0 := by omega
      simp [h1]
  · simp only [VersionVector.getD, hg, Option.getD_some]
    by_cases h1 : c < e.2
    · have h2 : ¬ e.2 < c := by omega
      simp only [if_pos h1, if_neg h2]
      have k1 : ¬ e.2 ≤ c := by omega
      have k2 : c ≤ e.2 := by omega
      have k3 : ¬ c = e.2 := by omega
      simp [k1, k2, k3]
    · by_cases h2 : e.2 < c
      · simp only [if_neg h1, if_pos h2]
        have k1 : e.2 ≤ c := by omega
        have k2 : ¬ c ≤ e.2 := by omega
        have k3 : ¬ c = e.2 := by omega
        simp [k1, k2, k3]
      · simp only [if_neg h1, if_neg h2]
        have k1 : e.2 ≤ c := by omega
        have k2 : c ≤ e.2 := by omega
        have k3 : c = e.2 := by omega
        simp [k1, k2, k3]

/-- One step of `partial_cmp`'s second loop in the same pointwise form
(the `self_greater` flag is untouched). -/
theorem cmpStep2_eq (b : VersionVector) (st : CmpFlags) (e : Nat × Nat) :
    cmpStep2 b st e =
      ⟨st.self_greater && true,
       st.other_greater && ((b.get e.1).isSome || decide (e.2 = 0)),
       st.eq && ((b.get e.1).isSome || decide (e.2 = 0))⟩ := by
  rcases st with ⟨sg, og, eq⟩
  rcases hg : b.get e.1 with _ | c
  · by_cases h : 0 < e.2
    · have h1 : ¬ e.2 = 0 := by omega
      simp [cmpStep2, hg, h, h1]
    · have h1 : e.2 = 0 := by omega
      simp [cmpStep2, hg, h, h1]
  · simp [cmpStep2, hg]

/-- Folding a flag-conjunction step computes a conjunction with `all`. -/
theorem foldl_flags {α : Type} (f : CmpFlags → α → CmpFlags) (p q r : α → Bool)
    (hf : ∀ st e, f st e = ⟨st.self_greater && p e, st.other_greater && q e, st.eq && r e⟩)
    (l : List α) (st : CmpFlags) :
    l.foldl f st = ⟨st.self_greater && l.all p, st.other_greater && l.all q,
      st.eq && l.all r⟩ := by
  induction l generalizing st with
  | nil => rcases st with ⟨sg, og, eq⟩; simp
  | cons e t ih =>
    simp only [List.foldl_cons, hf]
    rw [ih]
    rcases st with ⟨sg, og, eq⟩
    simp [Bool.and_assoc]

/-- `partial_cmp` in terms of the fully folded flags. -/
theorem partialCmp_flags (a b : VersionVector) :
    a.partialCmp b =
      (if (b.all (fun e => decide (a.getD e.1 = e.2))
            && a.all (fun e => (b.get e.1).isSome || decide (e.2 = 0))) then some .eq
       else if b.all (fun e => decide (e.2 ≤ a.getD e.1)) then some .gt
       else if (b.all (fun e => decide (a.getD e.1 ≤ e.2))
            && a.all (fun e => (b.get e.1).isSome || decide (e.2 = 0))) then some .lt
       else none) := by
  unfold VersionVector.partialCmp
  simp only [foldl_flags (cmpStep1 a) (fun e => decide (e.2 ≤ a.getD e.1))
      (fun e => decide (a.getD e.1 ≤ e.2)) (fun e => decide (a.getD e.1 = e.2))
      (cmpStep1_eq a),
    foldl_flags (cmpStep2 b) (fun _ => true)
      (fun e => (b.get e.1).isSome || decide (e.2 = 0))
      (fun e => (b.get e.1).isSome || decide (e.2 = 0))
      (cmpStep2_eq b),
    Bool.true_and, Bool.and_true]
  have hall : (a.all fun _ => true) = true := by simp
  rw [hall, Bool.and_true]

theorem all_sg_iff (a b : VersionVector) (hb : b.keys.Nodup) :
    (b.all (fun e => decide (e.2 ≤ a.getD e.1)) = true) ↔
      ∀ p, b.getD p ≤ a.getD p := by
  rw [List.all_eq_true]
  constructor
  · intro h p
    rcases hg : b.get p with _ | c
    · simp [VersionVector.getD, hg]
    · have hmem := get_some_mem b p c hg
      have := h (p, c) hmem
      simp only [decide_eq_true_eq] at this
      simpa [VersionVector.getD, hg] using this
  · intro h e he
    have h1 := h e.1
    have h2 := getD_mem_nodup b hb e he
    simp only [decide_eq_true_eq]
    omega

theorem all_og_iff (a b : VersionVector) (ha : a.keys.Nodup) (hb : b.keys.Nodup) :
    ((b.all (fun e => decide (a.getD e.1 ≤ e.2))
        && a.all (fun e => (b.get e.1).isSome || decide (e.2 = 0))) = true) ↔
      ∀ p, a.getD p ≤ b.getD p := by
  rw [Bool.and_eq_true, List.all_eq_true, List.all_eq_true]
  constructor
  · rintro ⟨h1, h2⟩ p
    rcases hg : a.get p with _ | c
    · simp [VersionVector.getD, hg]
    · have hmem := get_some_mem a p c hg
      have hc := h2 (p, c) hmem
      simp only [Bool.or_eq_true, Option.isSome_iff_exists, decide_eq_true_eq] at hc
      rcases hc with ⟨d, hd⟩ | hc0
      · have hdmem := get_some_mem b p d hd
        have := h1 (p, d) hdmem
        simp only [decide_eq_true_eq] at this
        simpa [VersionVector.getD, hg, hd] using this
      · simp [VersionVector.getD, hg, hc0]
  · intro h
    constructor
    · intro e he
      have h1 := h e.1
      have h2 := getD_mem_nodup b hb e he
      simp only [decide_eq_true_eq]
      omega
    · intro e he
      have h2 := getD_mem_nodup a ha e he
      rcases hg : b.get e.1 with _ | d
      · have h1 := h e.1
        have h3 : b.getD e.1 = 0 := by simp [VersionVector.getD, hg]
        simp only [hg, Option.isSome_none, Bool.false_or, decide_eq_true_eq]
        omega
      · simp [hg]

theorem all_eq_iff (a b : VersionVector) (ha : a.keys.Nodup) (hb : b.keys.Nodup) :
    ((b.all (fun e => decide (a.getD e.1 = e.2))
        && a.all (fun e => (b.get e.1).isSome || decide (e.2 = 0))) = true) ↔
      ∀ p, a.getD p = b.getD p := by
  rw [Bool.and_eq_true, List.all_eq_true, List.all_eq_true]
  constructor
  · rintro ⟨h1, h2⟩ p
    rcases hg : a.get p with _ | c
    · rcases hg2 : b.get p with _ | d
      · simp [VersionVector.getD, hg, hg2]
      · have hdmem := get_some_mem b p d hg2
        have := h1 (p, d) hdmem
        simp only [decide_eq_true_eq] at this
        simpa [VersionVector.getD, hg, hg2] using this
    · have hmem := get_some_mem a p c hg
      rcases hg2 : b.get p with _ | d
      · have hc := h2 (p, c) hmem
        simp only [hg2, Option.isSome_none, Bool.false_or, decide_eq_true_eq] at hc
        simp [VersionVector.getD, hg, hg2, hc]
      · have hdmem := get_some_mem b p d hg2
        have := h1 (p, d) hdmem
        simp only [decide_eq_true_eq] at this
        simpa [VersionVector.getD, hg, hg2] using this
  · intro h
    constructor
    · intro e he
      have h1 := h e.1
      have h2 := getD_mem_nodup b hb e he
      simp only [decide_eq_true_eq]
      omega
    · intro e he
      have h2 := getD_mem_nodup a ha e he
      rcases hg : b.get e.1 with _ | d
      · have h1 := h e.1
        have h3 : b.getD e.1 = 0 := by simp [VersionVector.getD, hg]
        simp only [hg, Option.isSome_none, Bool.false_or, decide_eq_true_eq]
        omega
      · simp [hg]

/-- `includes_id` is the strict comparison against the defaulted end
counter. -/
theorem includes_id_iff (vv : VersionVector) (id : ID) :
    vv.includes_id id = decide (id.counter < vv.getD id.peer) := by
  unfold VersionVector.includes_id
  rcases hg : vv.get id.peer with _ | c
  · simp [VersionVector.getD, hg]
  · simp [VersionVector.getD, hg]

theorem set_eq_iff_getD (a b : VersionVector) :
    (∀ id, a.includes_id id = b.includes_id id) ↔ ∀ p, a.getD p = b.getD p := by
  constructor
  · intro h p
    have h1 := h ⟨p, a.getD p⟩
    have h2 := h ⟨p, b.getD p⟩
    simp only [includes_id_iff] at h1 h2
    simp only [decide_eq_decide] at h1 h2
    omega
  · intro h id
    simp [includes_id_iff, h id.peer]

theorem subset_iff_getD (a b : VersionVector) :
    (∀ id, a.includes_id id = true → b.includes_id id = true) ↔
      ∀ p, a.getD p ≤ b.getD p := by
  constructor
  · intro h p
    by_cases h0 : a.getD p = 0
    · omega
    · have h1 := h ⟨p, a.getD p - 1⟩
      simp only [includes_id_iff, decide_eq_true_eq] at h1
      have := h1 (by omega)
      omega
  · intro h id
    simp only [includes_id_iff, decide_eq_true_eq]
    have := h id.peer
    omega

theorem strict_iff_getD (a b : VersionVector) :
    (∃ id, a.includes_id id = true ∧ b.includes_id id = false) ↔
      ∃ p, b.getD p < a.getD p := by
  constructor
  · rintro ⟨id, h1, h2⟩
    simp only [includes_id_iff, decide_eq_true_eq, decide_eq_false_iff_not, not_lt] at h1 h2
    exact ⟨id.peer, by omega⟩
  · rintro ⟨p, hp⟩
    refine ⟨⟨p, b.getD p⟩, ?_, ?_⟩
    · simp only [includes_id_iff, decide_eq_true_eq]
      omega
    · simp only [includes_id_iff, decide_eq_false_iff_not, not_lt]
      omega

/-- **C2.**  `VersionVector::partial_cmp` agrees with subset order on the
sets of op ids the two vectors include: `Equal` iff the id sets coincide,
`Greater` iff `a`'s set strictly contains `b`'s, `Less` iff `b`'s
strictly contains `a`'s, `None` iff the sets are incomparable; and a peer
entry with counter `0` includes the same ids as an absent peer. -/
theorem vv_partial_cmp_subset_order (a b : VersionVector)
    (ha : a.keys.Nodup) (hb : b.keys.Nodup) :
    (a.partialCmp b = some .eq ↔ ∀ id, a.includes_id id = b.includes_id id) ∧
    (a.partialCmp b = some .gt ↔
      ((∀ id, b.includes_id id = true → a.includes_id id = true) ∧
       (∃ id, a.includes_id id = true ∧ b.includes_id id = false))) ∧
    (a.partialCmp b = some .lt ↔
      ((∀ id, a.includes_id id = true → b.includes_id id = true) ∧
       (∃ id, b.includes_id id = true ∧ a.includes_id id = false))) ∧
    (a.partialCmp b = none ↔
      ((∃ id, a.includes_id id = true ∧ b.includes_id id = false) ∧
       (∃ id, b.includes_id id = true ∧ a.includes_id id = false))) ∧
    (∀ p : Nat, p ∉ b.keys →
      ∀ id, VersionVector.includes_id ((p, (0 : Nat)) :: b) id = b.includes_id id) := by
  have hzero : ∀ p : Nat, p ∉ b.keys →
      ∀ id, VersionVector.includes_id ((p, (0 : Nat)) :: b) id = b.includes_id id := by
    intro p hp id
    by_cases hpe : p = id.peer
    · have hnone : b.get id.peer = none := (get_eq_none_iff b id.peer).mpr (hpe ▸ hp)
      simp [VersionVector.includes_id, VersionVector.get, hpe, hnone]
    · simp [VersionVector.includes_id, VersionVector.get, hpe]
  have hE := all_eq_iff a b ha hb
  have hG := all_sg_iff a b hb
  have hL := all_og_iff a b ha hb
  have main :
      (a.partialCmp b = some .eq ↔ ∀ id, a.includes_id id = b.includes_id id) ∧
      (a.partialCmp b = some .gt ↔
        ((∀ id, b.includes_id id = true → a.includes_id id = true) ∧
         (∃ id, a.includes_id id = true ∧ b.includes_id id = false))) ∧
      (a.partialCmp b = some .lt ↔
        ((∀ id, a.includes_id id = true → b.includes_id id = true) ∧
         (∃ id, b.includes_id id = true ∧ a.includes_id id = false))) ∧
      (a.partialCmp b = none ↔
        ((∃ id, a.includes_id id = true ∧ b.includes_id id = false) ∧
         (∃ id, b.includes_id id = true ∧ a.includes_id id = false))) := by
    rw [partialCmp_flags]
    by_cases he : ∀ p, a.getD p = b.getD p
    · rw [if_pos (hE.mpr he)]
      refine ⟨⟨fun _ => (set_eq_iff_getD a b).mpr he, fun _ => rfl⟩, ?_, ?_, ?_⟩
      · constructor
        · intro h; simp at h
        · rintro ⟨-, hstrict⟩
          rcases (strict_iff_getD a b).mp hstrict with ⟨p, hp⟩
          have := he p
          omega
      · constructor
        · intro h; simp at h
        · rintro ⟨-, hstrict⟩
          rcases (strict_iff_getD b a).mp hstrict with ⟨p, hp⟩
          have := he p
          omega
      · constructor
        · intro h; simp at h
        · rintro ⟨hstrict, -⟩
          rcases (strict_iff_getD a b).mp hstrict with ⟨p, hp⟩
          have := he p
          omega
    · rw [if_neg (fun hq => he (hE.mp hq))]
      by_cases hg : ∀ p, b.getD p ≤ a.getD p
      · rw [if_pos (hG.mpr hg)]
        have hstrict : ∃ p, b.getD p < a.getD p := by
          rcases not_forall.mp he with ⟨p, hp⟩
          exact ⟨p, by have := hg p; omega⟩
        refine ⟨?_, ?_, ?_, ?_⟩
        · constructor
          · intro h; simp at h
          · intro hseq
            exact absurd ((set_eq_iff_getD a b).mp hseq) he
        · exact ⟨fun _ => ⟨(subset_iff_getD b a).mpr hg, (strict_iff_getD a b).mpr hstrict⟩,
            fun _ => rfl⟩
        · constructor
          · intro h; simp at h
          · rintro ⟨-, hstrict'⟩
            rcases (strict_iff_getD b a).mp hstrict' with ⟨p, hp⟩
            have := hg p
            omega
        · constructor
          · intro h; simp at h
          · rintro ⟨-, hstrict'⟩
            rcases (strict_iff_getD b a).mp hstrict' with ⟨p, hp⟩
            have := hg p
            omega
      · rw [if_neg (fun hq => hg (hG.mp hq))]
        by_cases hl : ∀ p, a.getD p ≤ b.getD p
        · rw [if_pos (hL.mpr hl)]
          have hstrict : ∃ p, a.getD p < b.getD p := by
            rcases not_forall.mp hg with ⟨p, hp⟩
            exact ⟨p, by omega⟩
          refine ⟨?_, ?_, ?_, ?_⟩
          · constructor
            · intro h; simp at h
            · intro hseq
              exact absurd ((set_eq_iff_getD a b).mp hseq) he
          · constructor
            · intro h; simp at h
            · rintro ⟨hsub, -⟩
              have := (subset_iff_getD b a).mp hsub
              rcases hstrict with ⟨p, hp⟩
              have := this p
              omega
          · exact ⟨fun _ => ⟨(subset_iff_getD a b).mpr hl, (strict_iff_getD b a).mpr hstrict⟩,
              fun _ => rfl⟩
          · constructor
            · intro h; simp at h
            · rintro ⟨hstrict', -⟩
              rcases (strict_iff_getD a b).mp hstrict' with ⟨p, hp⟩
              have := hl p
              omega
        · rw [if_neg (fun hq => hl (hL.mp hq))]
          have hstrictA : ∃ p, b.getD p < a.getD p := by
            rcases not_forall.mp hl with ⟨p, hp⟩
            exact ⟨p, by omega⟩
          have hstrictB : ∃ p, a.getD p < b.getD p := by
            rcases not_forall.mp hg with ⟨p, hp⟩
            exact ⟨p, by omega⟩
          refine ⟨?_, ?_, ?_, ?_⟩
          · constructor
            · intro h; simp at h
            · intro hseq
              exact absurd ((set_eq_iff_getD a b).mp hseq) he
          · constructor
            · intro h; simp at h
            · rintro ⟨hsub, -⟩
              have hsub' := (subset_iff_getD b a).mp hsub
              rcases hstrictB with ⟨p, hp⟩
              have := hsub' p
              omega
          · constructor
            · intro h; simp at h
            · rintro ⟨hsub, -⟩
              have hsub' := (subset_iff_getD a b).mp hsub
              rcases hstrictA with ⟨p, hp⟩
              have := hsub' p
              omega
          · exact ⟨fun _ => ⟨(strict_iff_getD a b).mpr hstrictA,
              (strict_iff_getD b a).mpr hstrictB⟩, fun _ => rfl⟩
  exact ⟨main.1, main.2.1, main.2.2.1, main.2.2.2, hzero⟩

/-- Witness for C2: `{1: 2, 2: 3}` and `{2: 3, 1: 2}` include the same
op ids, so `partial_cmp` returns `Equal`. -/
theorem vv_partial_cmp_subset_order_witness :
    VersionVector.partialCmp [(1, 2), (2, 3)] [(2, 3), (1, 2)] = some .eq :=
  (vv_partial_cmp_subset_order [(1, 2), (2, 3)] [(2, 3), (1, 2)]
      (by decide) (by decide)).1.mpr
    (fun id => by
      rcases id with ⟨p, c⟩
      simp only [VersionVector.includes_id, VersionVector.get]
      split_ifs with h1 h2 h2 <;> first | rfl | omega)

/-! ## C9: depth computation and the depth boundary -/

theorem stackMax_cons (e : LoroValue × Nat) (l : List (LoroValue × Nat)) :
    stackMax (e :: l) = max (depthContrib e) (stackMax l) := rfl

theorem stackMax_append (l1 l2 : List (LoroValue × Nat)) :
    stackMax (l1 ++ l2) = max (stackMax l1) (stackMax l2) := by
  induction l1 with
  | nil => simp [stackMax]
  | cons e t ih =>
    simp only [List.cons_append, stackMax_cons, ih]
    omega

theorem children_max_list (xs : List LoroValue) (d : Nat) :
    max (d + 1) (stackMax (xs.map fun x => (x, d + 1))) = d + 1 + valueDepthList xs := by
  induction xs with
  | nil => simp [stackMax, valueDepthList]
  | cons x t ih =>
    simp only [List.map_cons, stackMax_cons, valueDepthList]
    simp only [depthContrib]
    by_cases h0 : valueDepth x = 0
    · rw [if_pos h0, h0]
      omega
    · rw [if_neg h0]
      omega

theorem children_max_entries (es : List (List Nat × LoroValue)) (d : Nat) :
    max (d + 1) (stackMax (es.map fun e => (e.2, d + 1))) =
      d + 1 + valueDepthEntries es := by
  induction es with
  | nil => simp [stackMax, valueDepthEntries]
  | cons e t ih =>
    simp only [List.map_cons, stackMax_cons, valueDepthEntries]
    simp only [depthContrib]
    by_cases h0 : valueDepth e.2 = 0
    · rw [if_pos h0, h0]
      omega
    · rw [if_neg h0]
      omega

/-- The worklist loop computes the maximum of the running value and the
contributions of everything still on the stack. -/
theorem get_depth_loop_eq (stack : List (LoroValue × Nat)) (m : Nat) :
    get_depth_loop stack m = max m (stackMax stack) := by
  induction stack, m using get_depth_loop.induct with
  | case1 m => simp [get_depth_loop, stackMax]
  | case2 d rest m xs ih =>
    rw [get_depth_loop, ih, stackMax_append, stackMax_cons]
    have h1 := children_max_list xs d
    have h2 : depthContrib (LoroValue.list xs, d) = d + (1 + valueDepthList xs) := by
      simp [depthContrib, valueDepth]
    omega
  | case3 d rest m es ih =>
    rw [get_depth_loop, ih, stackMax_append, stackMax_cons]
    have h1 := children_max_entries es d
    have h2 : depthContrib (LoroValue.map es, d) = d + (1 + valueDepthEntries es) := by
      simp [depthContrib, valueDepth]
    omega
  | case4 v d rest m hne1 hne2 ih =>
    have hv : valueDepth v = 0 := by
      cases v <;> first
        | rfl
        | (rename_i xs; exact absurd rfl (hne1 xs))
        | (rename_i es; exact absurd rfl (hne2 es))
    rw [get_depth_loop, ih, stackMax_cons]
    · simp [depthContrib, hv]
    · exact fun xs h => hne1 xs h
    · exact fun es h => hne2 es h

/-- `get_depth` computes the recursive depth measure. -/
theorem get_depth_eq_valueDepth (v : LoroValue) :
    v.get_depth = valueDepth v := by
  unfold LoroValue.get_depth
  rw [get_depth_loop_eq, stackMax_cons]
  simp only [stackMax, List.map_nil, List.foldr_nil, depthContrib]
  by_cases h0 : valueDepth v = 0
  · rw [if_pos h0, h0]
    omega
  · rw [if_neg h0]
    omega

/-- **C9.**  The API boundary rejects a value with `DepthExceeded`
exactly when its nesting depth — each list or map level adding one,
leaves adding none — exceeds `128`, and accepts it otherwise; the
source's worklist `get_depth` computes exactly that recursive depth. -/
theorem value_depth_boundary (v : LoroValue) :
    (checkValueDepth v = .error .depthExceeded ↔ 128 < valueDepth v) ∧
    (checkValueDepth v = .ok v ↔ valueDepth v ≤ 128) ∧
    v.get_depth = valueDepth v := by
  have hd := get_depth_eq_valueDepth v
  by_cases h : 128 < valueDepth v
  · have ht : v.is_too_deep = true := by
      simp [LoroValue.is_too_deep, MAX_DEPTH, hd, h]
    refine ⟨?_, ?_, hd⟩
    · simp [checkValueDepth, ht, h]
    · constructor
      · intro hok
        simp [checkValueDepth, ht] at hok
      · intro hle
        omega
  · have ht : v.is_too_deep = false := by
      simp [LoroValue.is_too_deep, MAX_DEPTH, hd]
      omega
    refine ⟨?_, ?_, hd⟩
    · constructor
      · intro herr
        simp [checkValueDepth, ht] at herr
      · intro hgt
        omega
    · simp [checkValueDepth, ht]
      omega

/-! ## C4: slicing is the inverse of merging for ops -/

set_option maxRecDepth 8000 in
theorem dswid_slice_merge (peer c : Nat) (pos L : Int) (n k : Nat)
    (hn : L.natAbs = n) (h2 : 2 ≤ n) (hk0 : 0 < k) (hkn : k < n) :
    (DeleteSpanWithId.is_mergable
        (DeleteSpanWithId.sliceSpan ⟨⟨peer, c⟩, ⟨pos, L⟩⟩ 0 k)
        (DeleteSpanWithId.sliceSpan ⟨⟨peer, c⟩, ⟨pos, L⟩⟩ k n) = true) ∧
      DeleteSpanWithId.mergeWith
        (DeleteSpanWithId.sliceSpan ⟨⟨peer, c⟩, ⟨pos, L⟩⟩ 0 k)
        (DeleteSpanWithId.sliceSpan ⟨⟨peer, c⟩, ⟨pos, L⟩⟩ k n) = ⟨⟨peer, c⟩, ⟨pos, L⟩⟩ := by
  have hL : L = (n : Int) ∨ L = -(n : Int) := by
    rcases Int.natAbs_eq L with h | h
    · left; rw [h, hn]
    · right; rw [h, hn]
  rcases hL with hL | hL
  · -- forward span
    subst hL
    have hpos : (0 : Int) < (n : Int) := by omega
    have hb1t : k = 1 → DeleteSpan.bidirectional ⟨pos, (k : Int)⟩ = true := by
      intro h; simp [DeleteSpan.bidirectional, h]
    have hb1f : ¬ k = 1 → DeleteSpan.bidirectional ⟨pos, (k : Int)⟩ = false := by
      intro h; simp only [DeleteSpan.bidirectional, Int.natAbs_ofNat]; simp [h]
    have hb2t : n - k = 1 →
        DeleteSpan.bidirectional ⟨pos, (n : Int) - (k : Int)⟩ = true := by
      intro h
      simp only [DeleteSpan.bidirectional]
      have habs : ((n : Int) - (k : Int)).natAbs = 1 := by omega
      simp [habs]
    have hb2f : ¬ n - k = 1 →
        DeleteSpan.bidirectional ⟨pos, (n : Int) - (k : Int)⟩ = false := by
      intro h
      simp only [DeleteSpan.bidirectional]
      have habs : ((n : Int) - (k : Int)).natAbs ≠ 1 := by omega
      simp [habs]
    simp only [DeleteSpanWithId.sliceSpan, DeleteSpan.sliceSpan, if_pos hpos, ID.inc,
      DeleteSpanWithId.content_len, DeleteSpan.content_len]
    simp only [Nat.cast_zero, sub_zero, Nat.add_zero]
    constructor
    · unfold DeleteSpanWithId.is_mergable
      dsimp only
      by_cases hk1 : k = 1 <;> by_cases hn1 : n - k = 1
      all_goals (first
        | rw [hb1t hk1] | rw [hb1f hk1])
      all_goals (first
        | rw [hb2t hn1] | rw [hb2f hn1])
      all_goals
        clear hb1t hb1f hb2t hb2f hn
        simp only [DeleteSpan.prev_pos, DeleteSpan.next_pos, DeleteSpan.endPos,
          DeleteSpan.start, DeleteSpan.direction, DeleteSpanWithId.id_end,
          DeleteSpanWithId.content_len, DeleteSpan.content_len, ID.inc]
        (try split_ifs)
        all_goals (try simp_all [beq_iff_eq, ID.mk.injEq, DeleteSpan.mk.injEq,
          DeleteSpanWithId.mk.injEq])
        all_goals omega
    · unfold DeleteSpanWithId.mergeWith DeleteSpan.mergeWith
      dsimp only
      by_cases hk1 : k = 1 <;> by_cases hn1 : n - k = 1
      all_goals (first
        | rw [hb1t hk1] | rw [hb1f hk1])
      all_goals (first
        | rw [hb2t hn1] | rw [hb2f hn1])
      all_goals
        clear hb1t hb1f hb2t hb2f hn
        simp only [DeleteSpan.prev_pos, DeleteSpan.next_pos, DeleteSpan.endPos,
          DeleteSpan.start, DeleteSpan.direction, DeleteSpanWithId.id_end,
          DeleteSpanWithId.content_len, DeleteSpan.content_len, ID.inc,
          DeleteSpanWithId.mk.injEq, DeleteSpan.mk.injEq, ID.mk.injEq]
        (try split_ifs)
        all_goals (try simp_all [beq_iff_eq, ID.mk.injEq, DeleteSpan.mk.injEq,
          DeleteSpanWithId.mk.injEq])
        all_goals (try omega)
        all_goals (try (refine ⟨⟨trivial, ?_⟩, ?_⟩ <;> first | omega | (congr 1 <;> omega)))
        all_goals omega
  · -- reversed span
    subst hL
    have hneg : ¬ (0 : Int) < -(n : Int) := by omega
    have hnabs : (-(n : Int)).natAbs = n := by omega
    have hb1t : k = 1 → DeleteSpan.bidirectional ⟨pos, -(k : Int)⟩ = true := by
      intro h
      simp only [DeleteSpan.bidirectional]
      have habs : (-(k : Int)).natAbs = 1 := by omega
      simp [habs]
    have hb1f : ¬ k = 1 → DeleteSpan.bidirectional ⟨pos, -(k : Int)⟩ = false := by
      intro h
      simp only [DeleteSpan.bidirectional]
      have habs : (-(k : Int)).natAbs ≠ 1 := by omega
      simp [habs] <;> omega
    have hb2t : n - k = 1 →
        DeleteSpan.bidirectional ⟨pos - (k : Int), (k : Int) - (n : Int)⟩ = true := by
      intro h
      simp only [DeleteSpan.bidirectional]
      have habs : ((k : Int) - (n : Int)).natAbs = 1 := by omega
      simp [habs]
    have hb2f : ¬ n - k = 1 →
        DeleteSpan.bidirectional ⟨pos - (k : Int), (k : Int) - (n : Int)⟩ = false := by
      intro h
      simp only [DeleteSpan.bidirectional]
      have habs : ((k : Int) - (n : Int)).natAbs ≠ 1 := by omega
      simp [habs]
    simp only [DeleteSpanWithId.sliceSpan, DeleteSpan.sliceSpan, if_neg hneg, ID.inc,
      DeleteSpanWithId.content_len, DeleteSpan.content_len, hnabs]
    simp only [Nat.cast_zero, sub_zero, Nat.add_zero, zero_sub, Nat.sub_self]
    constructor
    · unfold DeleteSpanWithId.is_mergable
      dsimp only
      by_cases hk1 : k = 1 <;> by_cases hn1 : n - k = 1
      all_goals (first
        | rw [hb1t hk1] | rw [hb1f hk1])
      all_goals (first
        | rw [hb2t hn1] | rw [hb2f hn1])
      all_goals
        clear hb1t hb1f hb2t hb2f hn
        simp only [DeleteSpan.prev_pos, DeleteSpan.next_pos, DeleteSpan.endPos,
          DeleteSpan.start, DeleteSpan.direction, DeleteSpanWithId.id_end,
          DeleteSpanWithId.content_len, DeleteSpan.content_len, ID.inc]
        (try split_ifs)
        all_goals (try simp_all [beq_iff_eq, ID.mk.injEq, DeleteSpan.mk.injEq,
          DeleteSpanWithId.mk.injEq])
        all_goals omega
    · unfold DeleteSpanWithId.mergeWith DeleteSpan.mergeWith
      dsimp only
      by_cases hk1 : k = 1 <;> by_cases hn1 : n - k = 1
      all_goals (first
        | rw [hb1t hk1] | rw [hb1f hk1])
      all_goals (first
        | rw [hb2t hn1] | rw [hb2f hn1])
      all_goals
        clear hb1t hb1f hb2t hb2f hn
        simp only [DeleteSpan.prev_pos, DeleteSpan.next_pos, DeleteSpan.endPos,
          DeleteSpan.start, DeleteSpan.direction, DeleteSpanWithId.id_end,
          DeleteSpanWithId.content_len, DeleteSpan.content_len, ID.inc,
          DeleteSpanWithId.mk.injEq, DeleteSpan.mk.injEq, ID.mk.injEq]
        (try split_ifs)
        all_goals (try simp_all [beq_iff_eq, ID.mk.injEq, DeleteSpan.mk.injEq,
          DeleteSpanWithId.mk.injEq])
        all_goals (try omega)
        all_goals (try (refine ⟨⟨trivial, ?_⟩, ?_⟩ <;> first | omega | (congr 1 <;> omega)))
        all_goals omega

theorem slice_range_slice_merge (a b n k : Nat)
    (hn : SliceRange.content_len ⟨a, b⟩ = n) (h2 : 2 ≤ n) (hk0 : 0 < k) (hkn : k < n) :
    (SliceRange.is_mergable (SliceRange.slice ⟨a, b⟩ 0 k) (SliceRange.slice ⟨a, b⟩ k n)
        = true) ∧
      SliceRange.mergeWith (SliceRange.slice ⟨a, b⟩ 0 k) (SliceRange.slice ⟨a, b⟩ k n)
        = ⟨a, b⟩ := by
  simp only [SliceRange.content_len] at hn
  have hb : b = a + n := by omega
  subst hb
  by_cases hu : a = UNKNOWN_START
  · subst hu
    constructor
    · simp [SliceRange.slice, SliceRange.is_unknown, SliceRange.new_unknown,
        SliceRange.is_mergable]
    · simp only [SliceRange.slice, SliceRange.is_unknown, SliceRange.new_unknown,
        SliceRange.mergeWith]
      simp [SliceRange.mk.injEq]
      omega
  · constructor
    · simp [SliceRange.slice, SliceRange.is_unknown, SliceRange.is_mergable, hu]
    · simp [SliceRange.slice, SliceRange.is_unknown, SliceRange.mergeWith, hu]

theorem byteOff_mono (cw : List Nat) {u v : Nat} (h : u ≤ v) :
    byteOff cw u ≤ byteOff cw v := by
  unfold byteOff
  have hv : v = u + (v - u) := by omega
  rw [hv, List.take_add, List.sum_append]
  omega

theorem dswid_slice_content_len (d : DeleteSpanWithId) (a b : Nat) (hab : a ≤ b) :
    (d.sliceSpan a b).content_len = b - a := by
  rcases d with ⟨id, ⟨pos, L⟩⟩
  simp only [DeleteSpanWithId.sliceSpan, DeleteSpanWithId.content_len, DeleteSpan.sliceSpan,
    DeleteSpan.content_len]
  split_ifs <;> simp <;> omega

/-- **C4.**  Slicing is the inverse of merging: for every op `o` (well
formed against the text buffer map `cw`) with atom length `n ≥ 2` and
every cut `0 < k < n`, the two slices `o[0, k)` and `o[k, n)` are
mergeable — their counters abut, the containers are equal and the
contents are mergeable — and merging them reproduces `o` exactly. -/
theorem op_slice_merge (cw : List Nat) (o : Op) (n k : Nat)
    (hwf : o.TextWF cw) (hn : o.content_len = n) (h2 : 2 ≤ n) (hk0 : 0 < k) (hkn : k < n) :
    (Op.is_mergable (o.sliceOp cw 0 k) (o.sliceOp cw k n) = true) ∧
      Op.mergeWith (o.sliceOp cw 0 k) (o.sliceOp cw k n) = o := by
  rcases o with ⟨counter, container, ⟨op⟩⟩
  simp only [Op.content_len, InnerContent.content_len, InnerContent.op] at hn
  simp only [Op.TextWF, InnerContent.op] at hwf
  simp only [Op.sliceOp, Op.is_mergable, Op.mergeWith, Op.content_len,
    InnerContent.sliceOp, InnerContent.content_len, InnerContent.is_mergable,
    InnerContent.mergeWith, InnerContent.op]
  cases op with
  | insert slice pos =>
    rcases slice with ⟨a, b⟩
    simp only [InnerListOp.content_len] at hn
    obtain ⟨hm, hmg⟩ := slice_range_slice_merge a b n k hn h2 hk0 hkn
    simp only [InnerListOp.sliceOp, InnerListOp.is_mergable, InnerListOp.mergeWith]
    constructor
    · have hlen : (SliceRange.slice ⟨a, b⟩ 0 k).content_len = k := by
        simp only [SliceRange.content_len] at hn
        simp only [SliceRange.slice, SliceRange.content_len, SliceRange.new_unknown]
        split_ifs <;> dsimp only <;> omega
      simp only [InnerListOp.content_len, hlen, hm]
      simp
    · simp only [hmg, Op.mk.injEq, InnerContent.list.injEq, InnerListOp.insert.injEq]
      simp
  | insertText slice us len pos =>
    rcases slice with ⟨s0, s1⟩
    simp only [InnerListOp.content_len] at hn
    obtain ⟨hws, hwe⟩ := hwf
    subst hn
    have hmono1 : byteOff cw us ≤ byteOff cw (us + k) := byteOff_mono cw (by omega)
    have hmono2 : byteOff cw us ≤ byteOff cw (us + len) := byteOff_mono cw (by omega)
    simp only [InnerListOp.sliceOp, InnerListOp.is_mergable, InnerListOp.mergeWith,
      u2bRange, BytesSlice.sliceBytes, BytesSlice.can_merge, BytesSlice.mergeWith,
      InnerListOp.content_len]
    constructor
    · simp only [Nat.add_zero, Nat.sub_zero]
      simp
    · simp only [Op.mk.injEq, InnerContent.list.injEq, InnerListOp.insertText.injEq,
        BytesSlice.mk.injEq]
      dsimp only at hws hwe
      refine ⟨by omega, trivial, ⟨?_, ?_⟩, by omega, by omega, by omega⟩
      · have h0 : us + 0 = us := rfl
        rw [h0]
        omega
      · rw [hws, hwe]
        omega
  | delete d =>
    simp only [InnerListOp.content_len, DeleteSpanWithId.content_len] at hn
    rcases d with ⟨⟨peer, c⟩, ⟨pos, L⟩⟩
    obtain ⟨hm, hmg⟩ := dswid_slice_merge peer c pos L n k hn h2 hk0 hkn
    simp only [InnerListOp.sliceOp, InnerListOp.is_mergable, InnerListOp.mergeWith]
    constructor
    · have hlen := dswid_slice_content_len ⟨⟨peer, c⟩, ⟨pos, L⟩⟩ 0 k (by omega)
      simp only [InnerListOp.content_len, hlen, hm]
      simp
    · simp only [hmg, Op.mk.injEq, InnerContent.list.injEq]
      simp
  | move f e t =>
    simp only [InnerListOp.content_len] at hn
    omega
  | set e v =>
    simp only [InnerListOp.content_len] at hn
    omega
  | styleStart s t key v info =>
    simp only [InnerListOp.content_len] at hn
    omega
  | styleEnd =>
    simp only [InnerListOp.content_len] at hn
    omega

/-- Witness for C4 at a concrete reversed delete op of length 2, cut at
`k = 1`. -/
theorem op_slice_merge_witness :
    (Op.is_mergable
        (Op.sliceOp [] ⟨10, 0, .list (.delete ⟨⟨1, 5⟩, ⟨7, -2⟩⟩)⟩ 0 1)
        (Op.sliceOp [] ⟨10, 0, .list (.delete ⟨⟨1, 5⟩, ⟨7, -2⟩⟩)⟩ 1 2) = true) ∧
      Op.mergeWith
        (Op.sliceOp [] ⟨10, 0, .list (.delete ⟨⟨1, 5⟩, ⟨7, -2⟩⟩)⟩ 0 1)
        (Op.sliceOp [] ⟨10, 0, .list (.delete ⟨⟨1, 5⟩, ⟨7, -2⟩⟩)⟩ 1 2) =
        ⟨10, 0, .list (.delete ⟨⟨1, 5⟩, ⟨7, -2⟩⟩)⟩ :=
  op_slice_merge [] ⟨10, 0, .list (.delete ⟨⟨1, 5⟩, ⟨7, -2⟩⟩)⟩ 2 1 trivial (by decide)
    (by decide) (by decide) (by decide)

/-! ## C8: the human-readable value encoding and its inverse -/

theorem stripPre_append (pre rest : List Nat) :
    stripPre pre (pre ++ rest) = some rest := by
  simp [stripPre, List.isPrefixOf_iff_prefix, List.prefix_append, List.drop_left]

theorem stripPre_of_not_prefix (pre l : List Nat) (h : pre.isPrefixOf l = false) :
    stripPre pre l = none := by
  simp [stripPre, h]

theorem splitFirst_append (sep : Nat) (xs ys : List Nat) (h : sep ∉ xs) :
    splitFirst sep (xs ++ sep :: ys) = some (xs, ys) := by
  induction xs with
  | nil => simp [splitFirst]
  | cons c t ih =>
    simp only [List.mem_cons, not_or] at h
    have hne : ¬ c = sep := fun he => h.1 he.symm
    simp [splitFirst, hne, ih h.2]

theorem splitLast_append (sep : Nat) (xs ys : List Nat) (h : sep ∉ ys) :
    splitLast sep (xs ++ sep :: ys) = some (xs, ys) := by
  have hr : (xs ++ sep :: ys).reverse = ys.reverse ++ sep :: xs.reverse := by
    simp
  rw [splitLast, hr, splitFirst_append sep ys.reverse xs.reverse (by simpa using h)]
  simp

theorem natChars_bounds (n c : Nat) (h : c ∈ natChars n) : 48 ≤ c ∧ c ≤ 57 := by
  unfold natChars at h
  split at h
  · simp at h
    omega
  · simp only [List.mem_reverse, List.mem_map] at h
    obtain ⟨d, hd, hc⟩ := h
    have : d < 10 := Nat.digits_lt_base (by omega) hd
    omega

theorem natChars_ne_nil (n : Nat) : natChars n ≠ [] := by
  unfold natChars
  split
  · simp
  · simp [Nat.digits_ne_nil_iff_ne_zero, *]

theorem foldr_digit_chars (ds : List Nat) :
    List.foldr (fun c acc => acc * 10 + (c - 48)) 0 (ds.map (fun d => 48 + d)) =
      Nat.ofDigits 10 ds := by
  induction ds with
  | nil => simp [Nat.ofDigits]
  | cons d t ih =>
    simp [Nat.ofDigits, ih]
    ring

theorem parseNatChars_natChars (n : Nat) : parseNatChars (natChars n) = some n := by
  unfold parseNatChars
  rw [if_neg (natChars_ne_nil n)]
  rw [if_pos]
  · congr 1
    unfold natChars
    split
    · subst n
      rfl
    · rw [List.foldl_reverse]
      rw [foldr_digit_chars]
      exact Nat.ofDigits_digits 10 n
  · rw [List.all_eq_true]
    intro c hc
    have := natChars_bounds n c hc
    simp
    omega

theorem tyParse_tyChars (t : ContainerType) :
    ContainerType.tyParse (ContainerType.tyChars t) = some t := by
  cases t <;> decide

theorem not_mem_natChars_64 (n : Nat) : 64 ∉ natChars n := by
  intro h
  have := natChars_bounds n 64 h
  omega

theorem not_mem_natChars_58 (n : Nat) : 58 ∉ natChars n := by
  intro h
  have := natChars_bounds n 58 h
  omega

theorem not_mem_tyChars_58 (t : ContainerType) : 58 ∉ ContainerType.tyChars t := by
  cases t <;> decide

theorem cidParse_cidToChars (id : ContainerID) :
    ContainerID.cidParse id.cidToChars = some id := by
  cases id with
  | root name ty =>
    simp only [ContainerID.cidToChars, ContainerID.cidParse]
    rw [show cidHead ++ rootHead ++ name ++ [58] ++ ty.tyChars =
        cidHead ++ (rootHead ++ (name ++ 58 :: ty.tyChars)) by simp]
    have hsl := splitLast_append 58 name ty.tyChars (not_mem_tyChars_58 ty)
    simp only [stripPre_append, hsl, tyParse_tyChars]
    rfl
  | normal peer counter ty =>
    simp only [ContainerID.cidToChars, ContainerID.cidParse]
    rw [show cidHead ++ normalHead ++ natChars counter ++ [64] ++ natChars peer ++ [58]
          ++ ty.tyChars =
        cidHead ++ (normalHead ++ (natChars counter ++ 64 ::
          (natChars peer ++ 58 :: ty.tyChars))) by simp]
    have hroot : stripPre rootHead (normalHead ++ (natChars counter ++ 64 ::
        (natChars peer ++ 58 :: ty.tyChars))) = none := by
      apply stripPre_of_not_prefix
      simp [rootHead, normalHead, List.isPrefixOf]
    have h64 := splitFirst_append 64 (natChars counter)
      (natChars peer ++ 58 :: ty.tyChars) (not_mem_natChars_64 counter)
    have h58 := splitFirst_append 58 (natChars peer) ty.tyChars
      (not_mem_natChars_58 peer)
    simp only [stripPre_append, hroot, h64, h58, parseNatChars_natChars, tyParse_tyChars]

mutual

theorem roundtrip_value : ∀ v : LoroValue, roundtrippable v = true →
    deserializeValue (serializeValue v) = some v
  | .null, _ => rfl
  | .bool _, _ => rfl
  | .double _, _ => rfl
  | .i64 _, _ => rfl
  | .binary _, h => by simp [roundtrippable] at h
  | .string s, h => by
    have hp : sentinel.isPrefixOf s = false := by
      simp only [roundtrippable, Bool.not_eq_true'] at h
      exact h
    simp [serializeValue, deserializeValue, stripPre, hp]
  | .container id, _ => by
    simp [serializeValue, deserializeValue, stripPre_append, cidParse_cidToChars]
  | .list l, h => by
    have hl := roundtrip_list l (by simpa [roundtrippable] using h)
    simp [serializeValue, deserializeValue, hl]
  | .map es, h => by
    have he := roundtrip_entries es (by simpa [roundtrippable] using h)
    simp [serializeValue, deserializeValue, he]

theorem roundtrip_list : ∀ l : List LoroValue, roundtrippableList l = true →
    deserializeValueList (serializeValueList l) = some l
  | [], _ => rfl
  | v :: t, h => by
    simp only [roundtrippableList, Bool.and_eq_true] at h
    have h1 := roundtrip_value v h.1
    have h2 := roundtrip_list t h.2
    simp [serializeValueList, deserializeValueList, h1, h2]

theorem roundtrip_entries : ∀ es : List (List Nat × LoroValue),
    roundtrippableEntries es = true →
    deserializeValueEntries (serializeValueEntries es) = some es
  | [], _ => rfl
  | e :: t, h => by
    simp only [roundtrippableEntries, Bool.and_eq_true] at h
    have h1 := roundtrip_value e.2 h.1
    have h2 := roundtrip_entries t h.2
    simp [serializeValueEntries, deserializeValueEntries, h1, h2]

end

/-- **C8.** (amended)  On roundtrippable values — those containing no
`Binary` payload and no string that itself starts with the `"🦜:"`
sentinel — the human-readable encoding round-trips: deserializing the
serialization yields the value back.  In particular a container
reference is encoded as the string `"🦜:" + id` and decodes back to the
same container reference. -/
theorem value_roundtrip (v : LoroValue) (id : ContainerID)
    (h : roundtrippable v = true) :
    deserializeValue (serializeValue v) = some v ∧
      serializeValue (.container id) = .jstr (sentinel ++ id.cidToChars) ∧
      deserializeValue (.jstr (sentinel ++ id.cidToChars)) = some (.container id) := by
  refine ⟨roundtrip_value v h, rfl, ?_⟩
  simp [deserializeValue, stripPre_append, cidParse_cidToChars]

/-- Counterexample to C8 as stated for every value: the string `"🦜:x"`
serializes to itself but fails to deserialize (the sentinel makes the
visitor parse it as a container id, which fails), and a binary payload
serializes through `collect_seq` and comes back as a list of integers. -/
theorem value_roundtrip_counterexample :
    deserializeValue (serializeValue (.string [129436, 58, 120])) = none ∧
      deserializeValue (serializeValue (.binary [7])) = some (.list [.i64 7]) := by
  constructor <;> rfl

/-- Witness for C8 at a concrete nested map value and a concrete normal
container id. -/
theorem value_roundtrip_witness :
    deserializeValue (serializeValue
        (.map [([107], .list [.string [104], .container (.root [114] .text)])])) =
      some (.map [([107], .list [.string [104], .container (.root [114] .text)])]) ∧
      serializeValue (.container (.normal 3 14 .movableList)) =
        .jstr (sentinel ++ (ContainerID.normal 3 14 .movableList).cidToChars) ∧
      deserializeValue (.jstr (sentinel ++ (ContainerID.normal 3 14 .movableList).cidToChars)) =
        some (.container (.normal 3 14 .movableList)) :=
  value_roundtrip (.map [([107], .list [.string [104], .container (.root [114] .text)])])
    (.normal 3 14 .movableList) (by rfl)

end Loro
